import Mathlib

/-!
# Sparse N-dimensional matrix (sparse-matrix/src)

A shallow embedding of `sparse_matrix.h` and `sparse_matrix_aux.h`:

* `aux::Position<Dim>` is a `std::array<size_t, Dim>`: a sequence of exactly
  `Dim` natural numbers.  Its two constructors are embedded as the loops of the
  source, run over the indeterminate initial contents of the array.
* `std::unordered_map<Position, T>` is a list of entries with pairwise distinct
  keys.  `find`, `operator[]` followed by assignment, and `erase` act on it.
* `SparseMatrix<T, Dim>` is the pair of the default value `deflt` and the map
  `cells`.
* `MatrixSlice` and `CellProxy` hold a coordinate and a reference to the parent
  matrix; the reference is embedded by passing the matrix state explicitly.
* `std::hash<aux::Position<D>>` is the loop of `hash_combine` in arithmetic
  modulo `2 ^ 64`, with `std::hash<size_t>` as a parameter.

The comparison `value != matrix.getDefault()` of the value type is embedded as
decidable (in)equality of `T`.
-/

namespace SparseMatrixModel

/-! ## The cells container: `std::unordered_map`

The list operations come with the lemmas that they keep the keys distinct,
which the map operations need. -/

/-- Lookup in the entry list: the value of the first entry keyed by `k`. -/
def findEntries {K V : Type} [DecidableEq K] (k : K) : List (K × V) → Option V
  | [] => none
  | (k1, v1) :: t => if k1 = k then some v1 else findEntries k t

/-- Effect of `cells[k] = v` on the entry list: `operator[]` adds a
value-initialised entry when `k` has none, and the assignment overwrites the
value of the entry keyed by `k`. -/
def assignEntries {K V : Type} [DecidableEq K] (k : K) (v : V) : List (K × V) → List (K × V)
  | [] => [(k, v)]
  | (k1, v1) :: t => if k1 = k then (k1, v) :: t else (k1, v1) :: assignEntries k v t

/-- Effect of `cells.erase(it)` for the entry keyed by `k` on the entry list. -/
def eraseEntries {K V : Type} [DecidableEq K] (k : K) : List (K × V) → List (K × V)
  | [] => []
  | (k1, v1) :: t => if k1 = k then t else (k1, v1) :: eraseEntries k t

/-- The keys of an entry list. -/
def keysOf {K V : Type} (l : List (K × V)) : List K := l.map Prod.fst

theorem keysOf_assignEntries {K V : Type} [DecidableEq K] (k : K) (v : V) (l : List (K × V)) :
    keysOf (assignEntries k v l) = if k ∈ keysOf l then keysOf l else keysOf l ++ [k] := by
  induction l with
  | nil => simp [assignEntries, keysOf]
  | cons hd t ih =>
    obtain ⟨k1, v1⟩ := hd
    by_cases h : k1 = k
    · subst h
      simp [assignEntries, keysOf]
    · have h2 : ¬ k = k1 := fun e => h e.symm
      simp only [keysOf] at ih
      simp only [assignEntries, keysOf, h, if_false, List.map_cons, List.mem_cons, h2, false_or, ih]
      split <;> simp

theorem mem_keysOf_eraseEntries {K V : Type} [DecidableEq K] (k c : K) (l : List (K × V)) :
    c ∈ keysOf (eraseEntries k l) → c ∈ keysOf l := by
  induction l with
  | nil => simp [eraseEntries]
  | cons hd t ih =>
    obtain ⟨k1, v1⟩ := hd
    by_cases h : k1 = k
    · simp only [eraseEntries, h, if_true, keysOf, List.map_cons, List.mem_cons]
      intro hc
      exact Or.inr hc
    · simp only [eraseEntries, h, if_false, keysOf, List.map_cons, List.mem_cons]
      simp only [keysOf] at ih
      intro hc
      rcases hc with hc | hc
      · exact Or.inl hc
      · exact Or.inr (ih hc)

theorem nodup_assignEntries {K V : Type} [DecidableEq K] (k : K) (v : V) (l : List (K × V))
    (h : (keysOf l).Nodup) : (keysOf (assignEntries k v l)).Nodup := by
  rw [keysOf_assignEntries]
  split
  · exact h
  · rename_i hk
    rw [List.nodup_append]
    refine ⟨h, List.nodup_singleton k, ?_⟩
    intro a ha hb
    simp only [List.mem_singleton] at hb
    subst hb
    exact hk ha

theorem nodup_eraseEntries {K V : Type} [DecidableEq K] (k : K) (l : List (K × V))
    (h : (keysOf l).Nodup) : (keysOf (eraseEntries k l)).Nodup := by
  induction l with
  | nil => simp [eraseEntries, keysOf]
  | cons hd t ih =>
    obtain ⟨k1, v1⟩ := hd
    simp only [keysOf, List.map_cons, List.nodup_cons] at h
    by_cases hk : k1 = k
    · simp only [eraseEntries, hk, if_true]
      exact h.2
    · simp only [eraseEntries, hk, if_false, keysOf, List.map_cons, List.nodup_cons]
      exact ⟨fun hc => h.1 (mem_keysOf_eraseEntries k k1 t hc), ih h.2⟩

/-- The container `std::unordered_map<K, V>`: finitely many entries, at most one
per key. -/
structure UnorderedMap (K V : Type) where
  entries : List (K × V)
  nodup : (keysOf entries).Nodup

namespace UnorderedMap

variable {K V : Type} [DecidableEq K]

/-- The empty map of a default-constructed `std::unordered_map`. -/
def emptyMap : UnorderedMap K V := ⟨[], List.nodup_nil⟩

/-- Member `find(k)`: `none` stands for the `end()` iterator, `some v` for an
iterator to the entry `(k, v)`. -/
def find (m : UnorderedMap K V) (k : K) : Option V := findEntries k m.entries

/-- Statement `m[k] = v`. -/
def assign (m : UnorderedMap K V) (k : K) (v : V) : UnorderedMap K V :=
  ⟨assignEntries k v m.entries, nodup_assignEntries k v m.entries m.nodup⟩

/-- Member `erase(it)` with `it` the iterator to the entry keyed by `k`. -/
def erase (m : UnorderedMap K V) (k : K) : UnorderedMap K V :=
  ⟨eraseEntries k m.entries, nodup_eraseEntries k m.entries m.nodup⟩

/-- Member `size()`. -/
def size (m : UnorderedMap K V) : Nat := m.entries.length

/-- Member `empty()`. -/
def empty (m : UnorderedMap K V) : Bool := m.entries.isEmpty

end UnorderedMap

/-! ## Coordinates: `aux::Position<Dim>` -/

/-- The array `std::array<size_t, Dim>` underlying `aux::Position<Dim>`. -/
structure Position (Dim : Nat) where
  coords : List Nat
  size_eq : coords.length = Dim
  deriving DecidableEq

namespace Position

/-- Member `size()` of the array. -/
def size {Dim : Nat} (_p : Position Dim) : Nat := Dim

/-- Read `p[i]`, for `i` within bounds. -/
def get {Dim : Nat} (p : Position Dim) (i : Nat) : Nat := p.coords.getD i 0

/-- Write `p[i] = x`.  Every write of the source is within bounds when the
dimension is at least 1. -/
def set {Dim : Nat} (p : Position Dim) (i : Nat) (x : Nat) : Position Dim :=
  ⟨p.coords.set i x, by rw [List.length_set]; exact p.size_eq⟩

/-- Loop `for (auto i : _lst) { (*this)[j] = i; if (++j == this->size()) break; }`
of the initializer-list constructor, started at index `j`. -/
def fillFrom {Dim : Nat} : List Nat → Nat → Position Dim → Position Dim
  | [], _, p => p
  | i :: rest, j, p =>
    if j + 1 = Dim then p.set j i else fillFrom rest (j + 1) (p.set j i)

/-- Constructor `Position(std::initializer_list<size_t> _lst)`, run on the array
contents `mem` the object has before the constructor body. -/
def ofList {Dim : Nat} (mem : Position Dim) (lst : List Nat) : Position Dim :=
  fillFrom lst 0 mem

/-- Loop `for (size_t i = 0; i < d.size(); i++) (*this)[i] = d[i];` of the
extending constructor. -/
def copyFrom {Dim : Nat} (d : Position Dim) (p : Position (Dim + 1)) : Position (Dim + 1) :=
  (List.range d.size).foldl (fun acc i => acc.set i (d.get i)) p

/-- Constructor `Position(Position<Dim-1> d, size_t lastCoord)`, run on the
array contents `mem` the object has before the constructor body. -/
def extend {Dim : Nat} (mem : Position (Dim + 1)) (d : Position Dim) (lastCoord : Nat) :
    Position (Dim + 1) :=
  (copyFrom d mem).set (Dim + 1 - 1) lastCoord

end Position

/-! ## The container: `SparseMatrix<T, Dim>` -/

/-- The class `SparseMatrix<T, Dim>`: the default value and the stored cells. -/
structure SparseMatrix (T : Type) (Dim : Nat) where
  deflt : T
  cells : UnorderedMap (Position Dim) T

namespace SparseMatrix

variable {T : Type} {Dim : Nat}

/-- Constructor `SparseMatrix(const T& _deflt)`. -/
def create (deflt : T) : SparseMatrix T Dim := ⟨deflt, UnorderedMap.emptyMap⟩

/-- Member `get(pos)`. -/
def get (m : SparseMatrix T Dim) (pos : Position Dim) : T :=
  match m.cells.find pos with
  | some v => v
  | none => m.deflt

/-- Member `set(pos, value)`: the statement `cells[pos] = value`. -/
def set (m : SparseMatrix T Dim) (pos : Position Dim) (value : T) : SparseMatrix T Dim :=
  { m with cells := m.cells.assign pos value }

/-- Member `clear(pos)`. -/
def clear (m : SparseMatrix T Dim) (pos : Position Dim) : SparseMatrix T Dim :=
  match m.cells.find pos with
  | some _ => { m with cells := m.cells.erase pos }
  | none => m

/-- Member `size()`. -/
def size (m : SparseMatrix T Dim) : Nat := m.cells.size

/-- Member `empty()`. -/
def empty (m : SparseMatrix T Dim) : Bool := m.cells.empty

/-- Member `getDefault()`. -/
def getDefault (m : SparseMatrix T Dim) : T := m.deflt

end SparseMatrix

/-! ## Cell references: `CellProxy<T, MaxDim>` -/

/-- The class `CellProxy<T, MaxDim>`: the coordinate of the cell.  The member
`matrix`, a reference to the parent, is passed to every operation. -/
structure CellProxy (MaxDim : Nat) where
  position : Position MaxDim
  deriving DecidableEq

namespace CellProxy

variable {T : Type} [DecidableEq T] {MaxDim : Nat}

/-- Member `getCopy()`. -/
def getCopy (self : CellProxy MaxDim) (matrix : SparseMatrix T MaxDim) : T :=
  matrix.get self.position

/-- Member `getRef()`. -/
def getRef (self : CellProxy MaxDim) (matrix : SparseMatrix T MaxDim) : T :=
  matrix.get self.position

/-- Conversion `operator T()`. -/
def toT (self : CellProxy MaxDim) (matrix : SparseMatrix T MaxDim) : T :=
  self.getCopy matrix

/-- Conversion `operator const T&()`. -/
def toConstRef (self : CellProxy MaxDim) (matrix : SparseMatrix T MaxDim) : T :=
  self.getRef matrix

/-- Both overloads `operator =(T const& value)` and `operator =(T && value)`:
the state of the parent matrix after the assignment.  The returned reference is
the proxy itself. -/
def assign (self : CellProxy MaxDim) (matrix : SparseMatrix T MaxDim) (value : T) :
    SparseMatrix T MaxDim :=
  if value ≠ matrix.getDefault then matrix.set self.position value
  else matrix.clear self.position

/-- Overload `operator =(const CellProxy &other)` for a source cell of another
container `otherMatrix`: the state of the destination container afterwards. -/
def assignFrom (self : CellProxy MaxDim) (matrix : SparseMatrix T MaxDim)
    {OtherDim : Nat} (other : CellProxy OtherDim) (otherMatrix : SparseMatrix T OtherDim) :
    SparseMatrix T MaxDim :=
  self.assign matrix (other.getCopy otherMatrix)

/-- Overload `operator =(const CellProxy &other)` for a source cell of the same
container. -/
def assignCell (self : CellProxy MaxDim) (matrix : SparseMatrix T MaxDim)
    (other : CellProxy MaxDim) : SparseMatrix T MaxDim :=
  self.assign matrix (other.getCopy matrix)

/- The overloads `operator ==(const CellProxy &other)` and
`operator !=(const CellProxy &other)` have no embedding: the body of the first is
`getRef() == static_cast<T>(other)`, and the cast is ambiguous between
`explicit operator const T&()` and `operator T()`, so neither member can be
instantiated. -/

/-- Comparison `operator ==(const T& other)`. -/
def eqValue (self : CellProxy MaxDim) (matrix : SparseMatrix T MaxDim) (other : T) : Bool :=
  decide (self.getRef matrix = other)

/-- Comparison `operator !=(const T& other)`. -/
def neValue (self : CellProxy MaxDim) (matrix : SparseMatrix T MaxDim) (other : T) : Bool :=
  !(self.eqValue matrix other)

end CellProxy

/-! ## Slices: `MatrixSlice<T, Dim, MaxDim>` -/

/-- The class `MatrixSlice<T, Dim, MaxDim>`, indexed by `PDim = MaxDim - Dim`
(the number of axes already fixed) and `MaxDim`; the template parameter `Dim`
is `MaxDim - PDim`.  The member `matrix` is passed explicitly. -/
structure MatrixSlice (PDim MaxDim : Nat) where
  coord : Position PDim
  deriving DecidableEq

namespace MatrixSlice

/-- Overload of `operator [](size_t lastCoord)` enabled for `Dim == 1`, that is
`MaxDim = PDim + 1`; `mem` is the indeterminate initial content of the local
`position`. -/
def indexCell {PDim : Nat} (self : MatrixSlice PDim (PDim + 1)) (mem : Position (PDim + 1))
    (lastCoord : Nat) : CellProxy (PDim + 1) :=
  ⟨Position.extend mem self.coord lastCoord⟩

/-- Overload of `operator [](size_t lastCoord)` enabled for `Dim != 1`, that is
at least two axes remain. -/
def indexSlice {PDim MaxDim : Nat} (self : MatrixSlice PDim MaxDim) (_h : PDim + 1 < MaxDim)
    (mem : Position (PDim + 1)) (lastCoord : Nat) : MatrixSlice (PDim + 1) MaxDim :=
  ⟨Position.extend mem self.coord lastCoord⟩

end MatrixSlice

namespace SparseMatrix

variable {T : Type} {Dim : Nat}

/-- Member `operator [](size_t firstCoord)` of a matrix of dimension `Dim >= 2`
(the `static_assert`): the slice holding `Position<1>({firstCoord})`. -/
def index (_m : SparseMatrix T Dim) (_h : 2 ≤ Dim) (mem : Position 1) (firstCoord : Nat) :
    MatrixSlice 1 Dim :=
  ⟨Position.ofList mem [firstCoord]⟩

end SparseMatrix

/-- The slice `m[x 0][x 1]...[x k]` of an `(n + 2)`-dimensional matrix, for
`k <= n`; `mem d` is the indeterminate initial content of a `Position<d>`. -/
def sliceAfter {T : Type} {n : Nat} (m : SparseMatrix T (n + 2)) (mem : (d : Nat) → Position d)
    (x : Nat → Nat) : (k : Nat) → k ≤ n → MatrixSlice (k + 1) (n + 2)
  | 0, _ => m.index (by omega) (mem 1) (x 0)
  | k + 1, h =>
    (sliceAfter m mem x k (by omega)).indexSlice (by omega) (mem (k + 1 + 1)) (x (k + 1))

/-- The cell reference `m[x 0][x 1]...[x (n + 1)]` of an `(n + 2)`-dimensional
matrix. -/
def cellAt {T : Type} {n : Nat} (m : SparseMatrix T (n + 2)) (mem : (d : Nat) → Position d)
    (x : Nat → Nat) : CellProxy (n + 2) :=
  (sliceAfter m mem x n (Nat.le_refl n)).indexCell (mem (n + 1 + 1)) (x (n + 1))

/-! ## Reads in state-passing form

`SparseMatrix::get` is not a `const` member and the cell reference holds a
non-`const` reference to its parent, so every read is also embedded as a
function returning the state it leaves behind. -/

namespace SparseMatrix

variable {T : Type} {Dim : Nat}

/-- Member `get(pos)` with the state of the container after the call. -/
def getS (m : SparseMatrix T Dim) (pos : Position Dim) : T × SparseMatrix T Dim :=
  match m.cells.find pos with
  | some v => (v, m)
  | none => (m.deflt, m)

end SparseMatrix

namespace CellProxy

variable {T : Type} [DecidableEq T] {MaxDim : Nat}

/-- Member `getCopy()` with the state left behind. -/
def getCopyS (self : CellProxy MaxDim) (matrix : SparseMatrix T MaxDim) :
    T × SparseMatrix T MaxDim :=
  matrix.getS self.position

/-- Member `getRef()` with the state left behind. -/
def getRefS (self : CellProxy MaxDim) (matrix : SparseMatrix T MaxDim) :
    T × SparseMatrix T MaxDim :=
  matrix.getS self.position

/-- Conversion `operator T()` with the state left behind. -/
def toTS (self : CellProxy MaxDim) (matrix : SparseMatrix T MaxDim) :
    T × SparseMatrix T MaxDim :=
  self.getCopyS matrix

/-- Conversion `operator const T&()` with the state left behind. -/
def toConstRefS (self : CellProxy MaxDim) (matrix : SparseMatrix T MaxDim) :
    T × SparseMatrix T MaxDim :=
  self.getRefS matrix

/-- Comparison `operator ==(const T& other)` with the state left behind. -/
def eqValueS (self : CellProxy MaxDim) (matrix : SparseMatrix T MaxDim) (other : T) :
    Bool × SparseMatrix T MaxDim :=
  let a := self.getRefS matrix
  (decide (a.1 = other), a.2)

/-- Comparison `operator !=(const T& other)` with the state left behind. -/
def neValueS (self : CellProxy MaxDim) (matrix : SparseMatrix T MaxDim) (other : T) :
    Bool × SparseMatrix T MaxDim :=
  let r := self.eqValueS matrix other
  (!r.1, r.2)

end CellProxy

/-! ## Sequences of operations -/

/-- The statements `m[c] = v` for the pairs `(c, v)` of `ws`, run in order. -/
def runWrites {T : Type} [DecidableEq T] {Dim : Nat} (m : SparseMatrix T Dim)
    (ws : List (Position Dim × T)) : SparseMatrix T Dim :=
  ws.foldl (fun acc w => (CellProxy.mk w.1).assign acc w.2) m

/-- One mutating statement on a container: `m[c] = v`, `m[c] = m[src]`,
`m[c] = other[src]` for a cell of another container, or `m.clear(c)`. -/
inductive Op (T : Type) (Dim : Nat) where
  | assignValue (c : Position Dim) (v : T)
  | assignCell (c src : Position Dim)
  | assignFrom (c : Position Dim) (OtherDim : Nat) (src : Position OtherDim)
      (other : SparseMatrix T OtherDim)
  | clear (c : Position Dim)

/-- The state after one statement. -/
def Op.run {T : Type} [DecidableEq T] {Dim : Nat} (m : SparseMatrix T Dim) :
    Op T Dim → SparseMatrix T Dim
  | .assignValue c v => (CellProxy.mk c).assign m v
  | .assignCell c src => (CellProxy.mk c).assignCell m (CellProxy.mk src)
  | .assignFrom c _ src other => (CellProxy.mk c).assignFrom m (CellProxy.mk src) other
  | .clear c => m.clear c

/-- The state after a sequence of statements, run in order. -/
def runOps {T : Type} [DecidableEq T] {Dim : Nat} (m : SparseMatrix T Dim)
    (ops : List (Op T Dim)) : SparseMatrix T Dim :=
  ops.foldl Op.run m

/-- The sparsity invariant: no stored entry holds the default value. -/
def NoDefaultStored {T : Type} {Dim : Nat} (m : SparseMatrix T Dim) : Prop :=
  ∀ e ∈ m.cells.entries, e.2 ≠ m.deflt

/-- The axis values of an index chain written as a list: `axes l i` is the
index of step `i`. -/
def axes (l : List Nat) : Nat → Nat := fun i => l.getD i 0

/-- The coordinate `(x, y)` of a two-dimensional matrix. -/
def pos2 (x y : Nat) : Position 2 := ⟨[x, y], rfl⟩

/-- The coordinate `(x, y, z)` of a three-dimensional matrix. -/
def pos3 (x y z : Nat) : Position 3 := ⟨[x, y, z], rfl⟩

/-! ## Cell-to-cell assignment with both states, iteration, whole-container assignment -/

namespace CellProxy

variable {T : Type} [DecidableEq T] {MaxDim : Nat}

/-- Overload `operator =(const CellProxy &other)` for a source cell of another
container, in state-passing form: the destination container and the source
container after `*this = other.getCopy()`. -/
def assignFromS (self : CellProxy MaxDim) (matrix : SparseMatrix T MaxDim)
    {OtherDim : Nat} (other : CellProxy OtherDim) (otherMatrix : SparseMatrix T OtherDim) :
    SparseMatrix T MaxDim × SparseMatrix T OtherDim :=
  let r := other.getCopyS otherMatrix
  (self.assign matrix r.1, r.2)

/-- Overload `operator =(const CellProxy &other)` for a source cell of the same
container, in state-passing form. -/
def assignCellS (self : CellProxy MaxDim) (matrix : SparseMatrix T MaxDim)
    (other : CellProxy MaxDim) : SparseMatrix T MaxDim :=
  let r := other.getCopyS matrix
  self.assign r.2 r.1

end CellProxy

namespace SparseMatrix

variable {T : Type} {Dim : Nat}

/-- Members `begin()` and `end()`: the pairs `(coordinate, value)` an iteration
from `begin()` to `end()` visits, each entry of `cells` once. -/
def iterate (m : SparseMatrix T Dim) : List (Position Dim × T) := m.cells.entries

/-- Copy constructor `SparseMatrix(const SparseMatrix& other)`: the new
container and `other` afterwards. -/
def copyConstruct (other : SparseMatrix T Dim) : SparseMatrix T Dim × SparseMatrix T Dim :=
  ({ deflt := other.deflt, cells := other.cells }, other)

/-- Copy assignment `operator =(const SparseMatrix& other)`: the statements
`cells = other.cells; deflt = other.deflt;`, giving the target and `other`
afterwards. -/
def copyAssign (self other : SparseMatrix T Dim) : SparseMatrix T Dim × SparseMatrix T Dim :=
  let self1 := { self with cells := other.cells }
  let self2 := { self1 with deflt := other.deflt }
  (self2, other)

/-- Move assignment `operator =(SparseMatrix && other)`: the statements
`cells.swap(other.cells); std::swap(deflt, other.deflt);`, giving the target and
`other` afterwards. -/
def moveAssign (self other : SparseMatrix T Dim) : SparseMatrix T Dim × SparseMatrix T Dim :=
  let self1 := { self with cells := other.cells }
  let other1 := { other with cells := self.cells }
  let self2 := { self1 with deflt := other1.deflt }
  let other2 := { other1 with deflt := self1.deflt }
  (self2, other2)

end SparseMatrix

/-! ## Signed indices and the coordinate hash -/

/-- The conversion of a signed index to the `size_t` parameter of
`operator []`: the value modulo `2 ^ 64`. -/
def toSizeT (i : Int) : Nat := (i % (2 : Int) ^ 64).toNat

/-- Member `hash_combine(seed, v)` of `std::hash<aux::Position<D>>`: the new
seed `seed ^ (hasher(v) + 0x9e3779b9 + (seed << 6) + (seed >> 2))` in `size_t`
arithmetic.  `hasher` is `std::hash<size_t>` of the standard library. -/
def hash_combine (hasher : Nat → Nat) (seed v : Nat) : Nat :=
  seed ^^^ ((hasher v + 0x9e3779b9 + (seed <<< 6) % 2 ^ 64 + (seed >>> 2)) % 2 ^ 64)

/-- Member `operator()(const aux::Position<D> &val)`: the loop
`for (size_t i = 0; i < val.size(); i++) hash_combine(seed, val[i]);` from
`seed = 0`. -/
def hashPosition (hasher : Nat → Nat) {D : Nat} (val : Position D) : Nat :=
  (List.range val.size).foldl (fun seed i => hash_combine hasher seed (val.get i)) 0

/-- Arrays holding `x` in every slot: one choice of the contents an array has
before a constructor body runs. -/
def filledMem (x : Nat) : (d : Nat) → Position d :=
  fun d => ⟨List.replicate d x, List.length_replicate d x⟩

/-- The range of a signed 64-bit index. -/
def InInt64 (i : Int) : Prop := -(2 : Int) ^ 63 ≤ i ∧ i < (2 : Int) ^ 63

/-- The cell reference `m[i][j]` of a two-dimensional matrix for signed index
expressions `i` and `j`, each converted to `size_t`. -/
def indexSigned {T : Type} (m : SparseMatrix T 2) (mem : (d : Nat) → Position d) (i j : Int) :
    CellProxy 2 :=
  cellAt m mem (axes [toSizeT i, toSizeT j])

/-! ## Facts about the entry list -/

section EntryLemmas

variable {K V : Type} [DecidableEq K]

theorem findEntries_eq_none_iff (k : K) (l : List (K × V)) :
    findEntries k l = none ↔ k ∉ keysOf l := by
  induction l with
  | nil => simp [findEntries, keysOf]
  | cons hd t ih =>
    obtain ⟨k1, v1⟩ := hd
    simp only [keysOf] at ih
    by_cases h : k1 = k
    · simp [findEntries, keysOf, h]
    · have h2 : ¬ k = k1 := fun e => h e.symm
      simp [findEntries, keysOf, h, h2, ih]

theorem findEntries_isSome_iff (k : K) (l : List (K × V)) :
    (∃ v, findEntries k l = some v) ↔ k ∈ keysOf l := by
  constructor
  · rintro ⟨v, hv⟩
    by_contra hk
    rw [(findEntries_eq_none_iff k l).mpr hk] at hv
    exact Option.noConfusion hv
  · intro hk
    cases hf : findEntries k l with
    | none => exact absurd hk ((findEntries_eq_none_iff k l).mp hf)
    | some v => exact ⟨v, rfl⟩

theorem findEntries_assignEntries_same (k : K) (v : V) (l : List (K × V)) :
    findEntries k (assignEntries k v l) = some v := by
  induction l with
  | nil => simp [findEntries, assignEntries]
  | cons hd t ih =>
    obtain ⟨k1, v1⟩ := hd
    by_cases h : k1 = k
    · simp [findEntries, assignEntries, h]
    · simp [findEntries, assignEntries, h, ih]

theorem findEntries_assignEntries_ne (k c : K) (v : V) (l : List (K × V)) (hne : k ≠ c) :
    findEntries c (assignEntries k v l) = findEntries c l := by
  induction l with
  | nil => simp [findEntries, assignEntries, hne]
  | cons hd t ih =>
    obtain ⟨k1, v1⟩ := hd
    by_cases h : k1 = k
    · subst h
      simp [findEntries, assignEntries, hne]
    · by_cases h2 : k1 = c
      · subst h2
        simp [findEntries, assignEntries, h]
      · simp [findEntries, assignEntries, h, h2, ih]

theorem findEntries_eraseEntries_same (k : K) (l : List (K × V)) (hnd : (keysOf l).Nodup) :
    findEntries k (eraseEntries k l) = none := by
  induction l with
  | nil => simp [findEntries, eraseEntries]
  | cons hd t ih =>
    obtain ⟨k1, v1⟩ := hd
    simp only [keysOf, List.map_cons, List.nodup_cons] at hnd
    by_cases h : k1 = k
    · subst h
      simp only [eraseEntries, if_true]
      exact (findEntries_eq_none_iff k1 t).mpr hnd.1
    · simp only [eraseEntries, h, if_false, findEntries]
      exact ih hnd.2

theorem findEntries_eraseEntries_ne (k c : K) (l : List (K × V)) (hne : k ≠ c) :
    findEntries c (eraseEntries k l) = findEntries c l := by
  induction l with
  | nil => simp [findEntries, eraseEntries]
  | cons hd t ih =>
    obtain ⟨k1, v1⟩ := hd
    by_cases h : k1 = k
    · subst h
      simp [findEntries, eraseEntries, hne]
    · by_cases h2 : k1 = c
      · subst h2
        simp [findEntries, eraseEntries, h]
      · simp [findEntries, eraseEntries, h, h2, ih]

theorem length_assignEntries (k : K) (v : V) (l : List (K × V)) :
    (assignEntries k v l).length = if k ∈ keysOf l then l.length else l.length + 1 := by
  have h := congrArg List.length (keysOf_assignEntries k v l)
  by_cases hk : k ∈ keysOf l
  · rw [if_pos hk] at h ⊢
    simpa [keysOf] using h
  · rw [if_neg hk] at h ⊢
    simpa [keysOf] using h

theorem length_eraseEntries_mem (k : K) (l : List (K × V)) (hk : k ∈ keysOf l) :
    (eraseEntries k l).length + 1 = l.length := by
  induction l with
  | nil => simp [keysOf] at hk
  | cons hd t ih =>
    obtain ⟨k1, v1⟩ := hd
    by_cases h : k1 = k
    · simp [eraseEntries, h]
    · have h2 : ¬ k = k1 := fun e => h e.symm
      simp only [keysOf, List.map_cons, List.mem_cons, h2, false_or] at hk
      simp only [eraseEntries, h, if_false, List.length_cons]
      rw [ih hk]

theorem eraseEntries_of_not_mem (k : K) (l : List (K × V)) (hk : k ∉ keysOf l) :
    eraseEntries k l = l := by
  induction l with
  | nil => rfl
  | cons hd t ih =>
    obtain ⟨k1, v1⟩ := hd
    simp only [keysOf, List.map_cons, List.mem_cons, not_or] at hk
    have h : ¬ k1 = k := fun e => hk.1 e.symm
    simp only [eraseEntries, h, if_false]
    rw [ih hk.2]

theorem mem_of_findEntries (k : K) (v : V) (l : List (K × V)) (h : findEntries k l = some v) :
    (k, v) ∈ l := by
  induction l with
  | nil => simp [findEntries] at h
  | cons hd t ih =>
    obtain ⟨k1, v1⟩ := hd
    by_cases hk : k1 = k
    · simp only [findEntries, hk, if_true, Option.some.injEq] at h
      simp [hk, h]
    · simp only [findEntries, hk, if_false] at h
      exact List.mem_cons_of_mem _ (ih h)

theorem findEntries_of_mem (k : K) (v : V) (l : List (K × V)) (hnd : (keysOf l).Nodup)
    (h : (k, v) ∈ l) : findEntries k l = some v := by
  induction l with
  | nil => simp at h
  | cons hd t ih =>
    obtain ⟨k1, v1⟩ := hd
    simp only [keysOf, List.map_cons, List.nodup_cons] at hnd
    rcases List.mem_cons.mp h with heq | hmem
    · simp only [Prod.mk.injEq] at heq
      simp [findEntries, heq.1, heq.2]
    · have hk : ¬ k1 = k := by
        intro e
        apply hnd.1
        rw [e]
        exact List.mem_map_of_mem Prod.fst hmem
      simp only [findEntries, hk, if_false]
      exact ih hnd.2 hmem

theorem mem_assignEntries (k : K) (v : V) (l : List (K × V)) (e : K × V)
    (h : e ∈ assignEntries k v l) : e = (k, v) ∨ e ∈ l := by
  induction l with
  | nil =>
    simp only [assignEntries, List.mem_singleton] at h
    exact Or.inl h
  | cons hd t ih =>
    obtain ⟨k1, v1⟩ := hd
    by_cases hk : k1 = k
    · simp only [assignEntries, hk, if_true, List.mem_cons] at h
      rcases h with h | h
      · exact Or.inl h
      · exact Or.inr (List.mem_cons_of_mem _ h)
    · simp only [assignEntries, hk, if_false, List.mem_cons] at h
      rcases h with h | h
      · exact Or.inr (by rw [h]; exact List.mem_cons_self _ _)
      · rcases ih h with h2 | h2
        · exact Or.inl h2
        · exact Or.inr (List.mem_cons_of_mem _ h2)

theorem mem_eraseEntries (k : K) (l : List (K × V)) (e : K × V)
    (h : e ∈ eraseEntries k l) : e ∈ l := by
  induction l with
  | nil => simp [eraseEntries] at h
  | cons hd t ih =>
    obtain ⟨k1, v1⟩ := hd
    by_cases hk : k1 = k
    · simp only [eraseEntries, hk, if_true] at h
      exact List.mem_cons_of_mem _ h
    · simp only [eraseEntries, hk, if_false, List.mem_cons] at h
      rcases h with h | h
      · rw [h]; exact List.mem_cons_self _ _
      · exact List.mem_cons_of_mem _ (ih h)

theorem filter_assignEntries (k : K) (v : V) (l : List (K × V)) :
    (assignEntries k v l).filter (fun e => decide (e.1 ≠ k))
      = l.filter (fun e => decide (e.1 ≠ k)) := by
  induction l with
  | nil => simp [assignEntries]
  | cons hd t ih =>
    obtain ⟨k1, v1⟩ := hd
    by_cases h : k1 = k
    · simp [assignEntries, h]
    · simp only [assignEntries, h, if_false]
      rw [List.filter_cons, List.filter_cons, ih]

theorem filter_eraseEntries (k : K) (l : List (K × V)) :
    (eraseEntries k l).filter (fun e => decide (e.1 ≠ k))
      = l.filter (fun e => decide (e.1 ≠ k)) := by
  induction l with
  | nil => simp [eraseEntries]
  | cons hd t ih =>
    obtain ⟨k1, v1⟩ := hd
    by_cases h : k1 = k
    · simp [eraseEntries, h]
    · simp only [eraseEntries, h, if_false]
      rw [List.filter_cons, List.filter_cons, ih]

theorem assignEntries_idem (k : K) (v : V) (l : List (K × V)) :
    assignEntries k v (assignEntries k v l) = assignEntries k v l := by
  induction l with
  | nil => simp [assignEntries]
  | cons hd t ih =>
    obtain ⟨k1, v1⟩ := hd
    by_cases h : k1 = k
    · simp [assignEntries, h]
    · simp [assignEntries, h, ih]

theorem assignEntries_of_not_mem (k : K) (v : V) (l : List (K × V)) (hk : k ∉ keysOf l) :
    assignEntries k v l = l ++ [(k, v)] := by
  induction l with
  | nil => rfl
  | cons hd t ih =>
    obtain ⟨k1, v1⟩ := hd
    simp only [keysOf, List.map_cons, List.mem_cons, not_or] at hk
    have h : ¬ k1 = k := fun e => hk.1 e.symm
    simp only [assignEntries, h, if_false, List.cons_append]
    rw [ih hk.2]

end EntryLemmas

/-! ## Facts about `get`, `set`, `clear` and `size` -/

section MatrixLemmas

variable {T : Type} {Dim : Nat}

theorem get_set_same (m : SparseMatrix T Dim) (c : Position Dim) (v : T) :
    (m.set c v).get c = v := by
  simp [SparseMatrix.get, SparseMatrix.set, UnorderedMap.find, UnorderedMap.assign,
    findEntries_assignEntries_same]

theorem get_set_ne (m : SparseMatrix T Dim) (c c1 : Position Dim) (v : T) (hne : c ≠ c1) :
    (m.set c v).get c1 = m.get c1 := by
  simp [SparseMatrix.get, SparseMatrix.set, UnorderedMap.find, UnorderedMap.assign,
    findEntries_assignEntries_ne c c1 v m.cells.entries hne]

theorem find_clear_same (m : SparseMatrix T Dim) (c : Position Dim) :
    (m.clear c).cells.find c = none := by
  unfold SparseMatrix.clear
  split
  · exact findEntries_eraseEntries_same c m.cells.entries m.cells.nodup
  · assumption

theorem find_clear_ne (m : SparseMatrix T Dim) (c c1 : Position Dim) (hne : c ≠ c1) :
    (m.clear c).cells.find c1 = m.cells.find c1 := by
  unfold SparseMatrix.clear
  split
  · exact findEntries_eraseEntries_ne c c1 m.cells.entries hne
  · rfl

theorem deflt_clear (m : SparseMatrix T Dim) (c : Position Dim) :
    (m.clear c).deflt = m.deflt := by
  unfold SparseMatrix.clear
  split <;> rfl

theorem get_clear_same (m : SparseMatrix T Dim) (c : Position Dim) :
    (m.clear c).get c = m.deflt := by
  simp only [SparseMatrix.get, find_clear_same, deflt_clear]

theorem get_clear_ne (m : SparseMatrix T Dim) (c c1 : Position Dim) (hne : c ≠ c1) :
    (m.clear c).get c1 = m.get c1 := by
  simp only [SparseMatrix.get, find_clear_ne m c c1 hne, deflt_clear]

theorem find_set_same (m : SparseMatrix T Dim) (c : Position Dim) (v : T) :
    (m.set c v).cells.find c = some v :=
  findEntries_assignEntries_same c v m.cells.entries

theorem find_set_ne (m : SparseMatrix T Dim) (c c1 : Position Dim) (v : T) (hne : c ≠ c1) :
    (m.set c v).cells.find c1 = m.cells.find c1 :=
  findEntries_assignEntries_ne c c1 v m.cells.entries hne

theorem size_set (m : SparseMatrix T Dim) (c : Position Dim) (v : T) :
    (m.set c v).size = if c ∈ keysOf m.cells.entries then m.size else m.size + 1 :=
  length_assignEntries c v m.cells.entries

theorem clear_of_not_stored (m : SparseMatrix T Dim) (c : Position Dim)
    (h : c ∉ keysOf m.cells.entries) : m.clear c = m := by
  have hf : m.cells.find c = none := (findEntries_eq_none_iff c m.cells.entries).mpr h
  unfold SparseMatrix.clear
  rw [hf]

theorem size_clear_stored (m : SparseMatrix T Dim) (c : Position Dim)
    (h : c ∈ keysOf m.cells.entries) : (m.clear c).size + 1 = m.size := by
  obtain ⟨v, hv⟩ := (findEntries_isSome_iff c m.cells.entries).mpr h
  have hf : m.cells.find c = some v := hv
  unfold SparseMatrix.clear
  rw [hf]
  exact length_eraseEntries_mem c m.cells.entries h

theorem get_ne_deflt_iff (m : SparseMatrix T Dim) (hm : NoDefaultStored m) (c : Position Dim) :
    m.get c ≠ m.deflt ↔ c ∈ keysOf m.cells.entries := by
  constructor
  · intro h
    by_contra hc
    have hf : m.cells.find c = none := (findEntries_eq_none_iff c m.cells.entries).mpr hc
    apply h
    simp only [SparseMatrix.get, hf]
  · intro h
    obtain ⟨v, hv⟩ := (findEntries_isSome_iff c m.cells.entries).mpr h
    have hf : m.cells.find c = some v := hv
    simp only [SparseMatrix.get, hf]
    exact hm (c, v) (mem_of_findEntries c v m.cells.entries hv)

theorem noDefaultStored_create (d : T) :
    NoDefaultStored (SparseMatrix.create d : SparseMatrix T Dim) := by
  intro e he
  simp [SparseMatrix.create, UnorderedMap.emptyMap] at he

theorem noDefaultStored_clear (m : SparseMatrix T Dim) (hm : NoDefaultStored m)
    (c : Position Dim) : NoDefaultStored (m.clear c) := by
  unfold SparseMatrix.clear
  split
  · intro e he
    exact hm e (mem_eraseEntries c m.cells.entries e he)
  · exact hm

theorem stored_set (m : SparseMatrix T Dim) (c : Position Dim) (v : T) :
    c ∈ keysOf (m.set c v).cells.entries :=
  (findEntries_isSome_iff c _).mp ⟨v, find_set_same m c v⟩

theorem not_stored_clear (m : SparseMatrix T Dim) (c : Position Dim) :
    c ∉ keysOf (m.clear c).cells.entries :=
  (findEntries_eq_none_iff c _).mp (find_clear_same m c)

theorem unorderedMap_ext {K V : Type} (a b : UnorderedMap K V) (h : a.entries = b.entries) :
    a = b := by
  cases a
  cases b
  simp only [UnorderedMap.mk.injEq]
  exact h

theorem set_set_same (m : SparseMatrix T Dim) (c : Position Dim) (v : T) :
    (m.set c v).set c v = m.set c v := by
  simp only [SparseMatrix.set, SparseMatrix.mk.injEq, true_and]
  exact unorderedMap_ext _ _ (assignEntries_idem c v m.cells.entries)

theorem clear_clear_same (m : SparseMatrix T Dim) (c : Position Dim) :
    (m.clear c).clear c = m.clear c :=
  clear_of_not_stored _ c (not_stored_clear m c)

theorem filter_clear (m : SparseMatrix T Dim) (c : Position Dim) :
    (m.clear c).cells.entries.filter (fun e => decide (e.1 ≠ c))
      = m.cells.entries.filter (fun e => decide (e.1 ≠ c)) := by
  unfold SparseMatrix.clear
  split
  · exact filter_eraseEntries c m.cells.entries
  · rfl

theorem ncard_non_default (m : SparseMatrix T Dim) (hm : NoDefaultStored m) :
    Set.ncard {c : Position Dim | m.get c ≠ m.getDefault} = m.size := by
  have hset : {c : Position Dim | m.get c ≠ m.getDefault}
      = ((keysOf m.cells.entries).toFinset : Set (Position Dim)) := by
    ext c
    simp only [Set.mem_setOf_eq, Finset.mem_coe, List.mem_toFinset]
    exact get_ne_deflt_iff m hm c
  rw [hset, Set.ncard_coe_Finset, List.toFinset_card_of_nodup m.cells.nodup]
  simp [keysOf, SparseMatrix.size, UnorderedMap.size]

theorem mem_entries_iff (m : SparseMatrix T Dim) (hm : NoDefaultStored m) (c : Position Dim)
    (v : T) : (c, v) ∈ m.cells.entries ↔ (v = m.get c ∧ m.get c ≠ m.getDefault) := by
  constructor
  · intro h
    have hf : m.cells.find c = some v := findEntries_of_mem c v m.cells.entries m.cells.nodup h
    have hg : m.get c = v := by simp only [SparseMatrix.get, hf]
    refine ⟨hg.symm, ?_⟩
    rw [hg]
    exact hm (c, v) h
  · rintro ⟨hv, hne⟩
    have hk := (get_ne_deflt_iff m hm c).mp hne
    obtain ⟨v1, hv1⟩ := (findEntries_isSome_iff c m.cells.entries).mpr hk
    have hf : m.cells.find c = some v1 := hv1
    have hg : m.get c = v1 := by simp only [SparseMatrix.get, hf]
    rw [hv, hg]
    exact mem_of_findEntries c v1 m.cells.entries hv1

theorem entries_nil_of_all_default (m : SparseMatrix T Dim) (hm : NoDefaultStored m)
    (h : ∀ c : Position Dim, m.get c = m.deflt) : m.cells.entries = [] := by
  cases he : m.cells.entries with
  | nil => rfl
  | cons e t =>
    exfalso
    have hk : e.1 ∈ keysOf m.cells.entries := by
      rw [he]
      simp [keysOf]
    exact (get_ne_deflt_iff m hm e.1).mpr hk (h e.1)

theorem entries_nil_of_find_none (m : SparseMatrix T Dim)
    (h : ∀ c : Position Dim, m.cells.find c = none) : m.cells.entries = [] := by
  cases he : m.cells.entries with
  | nil => rfl
  | cons e t =>
    exfalso
    have hk : e.1 ∈ keysOf m.cells.entries := by
      rw [he]
      simp [keysOf]
    exact (findEntries_eq_none_iff e.1 m.cells.entries).mp (h e.1) hk

section Assign

variable [DecidableEq T]

theorem deflt_assign (m : SparseMatrix T Dim) (c : Position Dim) (v : T) :
    ((CellProxy.mk c).assign m v).deflt = m.deflt := by
  unfold CellProxy.assign
  split
  · rfl
  · exact deflt_clear m c

theorem find_assign_ne (m : SparseMatrix T Dim) (c c1 : Position Dim) (v : T) (hne : c ≠ c1) :
    ((CellProxy.mk c).assign m v).cells.find c1 = m.cells.find c1 := by
  unfold CellProxy.assign
  split
  · exact find_set_ne m c c1 v hne
  · exact find_clear_ne m c c1 hne

theorem get_assign_ne (m : SparseMatrix T Dim) (c c1 : Position Dim) (v : T) (hne : c ≠ c1) :
    ((CellProxy.mk c).assign m v).get c1 = m.get c1 := by
  simp only [SparseMatrix.get, find_assign_ne m c c1 v hne, deflt_assign]

theorem get_assign_same (m : SparseMatrix T Dim) (c : Position Dim) (v : T) :
    ((CellProxy.mk c).assign m v).get c = v := by
  unfold CellProxy.assign
  split
  · exact get_set_same m c v
  · rename_i h
    have hv : v = m.deflt := by
      by_contra hc
      exact h hc
    rw [get_clear_same, hv]

theorem noDefaultStored_assign (m : SparseMatrix T Dim) (hm : NoDefaultStored m)
    (c : Position Dim) (v : T) : NoDefaultStored ((CellProxy.mk c).assign m v) := by
  unfold CellProxy.assign
  split
  · rename_i hv
    intro e he
    rcases mem_assignEntries c v m.cells.entries e he with h | h
    · rw [h]
      exact hv
    · exact hm e h
  · exact noDefaultStored_clear m hm c

theorem deflt_runWrites (m : SparseMatrix T Dim) (ws : List (Position Dim × T)) :
    (runWrites m ws).deflt = m.deflt := by
  induction ws generalizing m with
  | nil => rfl
  | cons w t ih =>
    simp only [runWrites, List.foldl_cons] at ih ⊢
    rw [ih, deflt_assign]

theorem get_runWrites_of_not_written (m : SparseMatrix T Dim) (ws : List (Position Dim × T))
    (c : Position Dim) (h : ∀ w ∈ ws, w.1 ≠ c) : (runWrites m ws).get c = m.get c := by
  induction ws generalizing m with
  | nil => rfl
  | cons w t ih =>
    simp only [runWrites, List.foldl_cons] at ih ⊢
    rw [ih _ (fun w1 hw1 => h w1 (List.mem_cons_of_mem _ hw1))]
    exact get_assign_ne m w.1 c w.2 (h w (List.mem_cons_self _ _))

theorem noDefaultStored_runWrites (m : SparseMatrix T Dim) (hm : NoDefaultStored m)
    (ws : List (Position Dim × T)) : NoDefaultStored (runWrites m ws) := by
  induction ws generalizing m with
  | nil => exact hm
  | cons w t ih =>
    simp only [runWrites, List.foldl_cons] at ih ⊢
    exact ih _ (noDefaultStored_assign m hm w.1 w.2)

theorem noDefaultStored_run (m : SparseMatrix T Dim) (hm : NoDefaultStored m) (op : Op T Dim) :
    NoDefaultStored (Op.run m op) := by
  cases op with
  | assignValue c v => exact noDefaultStored_assign m hm c v
  | assignCell c src => exact noDefaultStored_assign m hm c _
  | assignFrom c k src other => exact noDefaultStored_assign m hm c _
  | clear c => exact noDefaultStored_clear m hm c

theorem assign_of_ne (m : SparseMatrix T Dim) (c : Position Dim) (v : T) (h : v ≠ m.deflt) :
    (CellProxy.mk c).assign m v = m.set c v := by
  unfold CellProxy.assign
  exact if_pos h

theorem assign_of_eq (m : SparseMatrix T Dim) (c : Position Dim) (v : T) (h : ¬ v ≠ m.deflt) :
    (CellProxy.mk c).assign m v = m.clear c := by
  unfold CellProxy.assign
  exact if_neg h

theorem size_assign_assign (m : SparseMatrix T Dim) (c : Position Dim) (a b : T) :
    ((CellProxy.mk c).assign ((CellProxy.mk c).assign m a) b).size
      = ((CellProxy.mk c).assign m b).size := by
  have hs : (m.set c a).deflt = m.deflt := rfl
  have hc : (m.clear c).deflt = m.deflt := deflt_clear m c
  by_cases hb : b ≠ m.deflt
  · rw [assign_of_ne m c b hb]
    by_cases ha : a ≠ m.deflt
    · rw [assign_of_ne m c a ha, assign_of_ne (m.set c a) c b (by rw [hs]; exact hb),
        size_set, size_set, size_set, if_pos (stored_set m c a)]
    · rw [assign_of_eq m c a ha, assign_of_ne (m.clear c) c b (by rw [hc]; exact hb),
        size_set, size_set, if_neg (not_stored_clear m c)]
      by_cases hk : c ∈ keysOf m.cells.entries
      · rw [if_pos hk]
        exact size_clear_stored m c hk
      · rw [if_neg hk, clear_of_not_stored m c hk]
  · rw [assign_of_eq m c b hb]
    by_cases ha : a ≠ m.deflt
    · rw [assign_of_ne m c a ha, assign_of_eq (m.set c a) c b (by rw [hs]; exact hb)]
      have h1 := size_clear_stored (m.set c a) c (stored_set m c a)
      rw [size_set] at h1
      by_cases hk : c ∈ keysOf m.cells.entries
      · have h2 := size_clear_stored m c hk
        rw [if_pos hk] at h1
        omega
      · rw [if_neg hk] at h1
        rw [clear_of_not_stored m c hk]
        omega
    · rw [assign_of_eq m c a ha, assign_of_eq (m.clear c) c b (by rw [hc]; exact hb),
        clear_clear_same]

theorem assign_assign_same (m : SparseMatrix T Dim) (c : Position Dim) (v : T) :
    (CellProxy.mk c).assign ((CellProxy.mk c).assign m v) v = (CellProxy.mk c).assign m v := by
  have hs : (m.set c v).deflt = m.deflt := rfl
  have hc : (m.clear c).deflt = m.deflt := deflt_clear m c
  by_cases hv : v ≠ m.deflt
  · rw [assign_of_ne m c v hv, assign_of_ne (m.set c v) c v (by rw [hs]; exact hv),
      set_set_same]
  · rw [assign_of_eq m c v hv, assign_of_eq (m.clear c) c v (by rw [hc]; exact hv),
      clear_clear_same]

theorem filter_assign (m : SparseMatrix T Dim) (c : Position Dim) (v : T) :
    ((CellProxy.mk c).assign m v).cells.entries.filter (fun e => decide (e.1 ≠ c))
      = m.cells.entries.filter (fun e => decide (e.1 ≠ c)) := by
  unfold CellProxy.assign
  split
  · exact filter_assignEntries c v m.cells.entries
  · exact filter_clear m c

theorem runWrites_distinct (m : SparseMatrix T Dim) (ws : List (Position Dim × T))
    (hnd : (ws.map Prod.fst).Nodup) (hfresh : ∀ w ∈ ws, w.1 ∉ keysOf m.cells.entries)
    (hval : ∀ w ∈ ws, w.2 ≠ m.deflt) :
    (runWrites m ws).size = m.size + ws.length ∧
    ∀ w ∈ ws, (runWrites m ws).get w.1 = w.2 := by
  induction ws generalizing m with
  | nil => exact ⟨rfl, fun w hw => absurd hw (List.not_mem_nil w)⟩
  | cons w t ih =>
    simp only [List.map_cons, List.nodup_cons] at hnd
    have hw : w.2 ≠ m.deflt := hval w (List.mem_cons_self _ _)
    have hwk : w.1 ∉ keysOf m.cells.entries := hfresh w (List.mem_cons_self _ _)
    have hstep : (CellProxy.mk w.1).assign m w.2 = m.set w.1 w.2 := assign_of_ne m w.1 w.2 hw
    have hrun : runWrites m (w :: t) = runWrites (m.set w.1 w.2) t := by
      simp only [runWrites, List.foldl_cons, hstep]
    have hkeys : keysOf (m.set w.1 w.2).cells.entries = keysOf m.cells.entries ++ [w.1] := by
      have h := keysOf_assignEntries w.1 w.2 m.cells.entries
      rw [if_neg hwk] at h
      exact h
    have hfresh1 : ∀ w1 ∈ t, w1.1 ∉ keysOf (m.set w.1 w.2).cells.entries := by
      intro w1 hw1 hmem
      rw [hkeys, List.mem_append, List.mem_singleton] at hmem
      rcases hmem with hmem | hmem
      · exact hfresh w1 (List.mem_cons_of_mem _ hw1) hmem
      · apply hnd.1
        rw [← hmem]
        exact List.mem_map_of_mem Prod.fst hw1
    have hval1 : ∀ w1 ∈ t, w1.2 ≠ (m.set w.1 w.2).deflt :=
      fun w1 hw1 => hval w1 (List.mem_cons_of_mem _ hw1)
    obtain ⟨hsize, hget⟩ := ih (m.set w.1 w.2) hnd.2 hfresh1 hval1
    rw [hrun]
    constructor
    · rw [hsize, size_set, if_neg hwk, List.length_cons]
      omega
    · intro w1 hw1
      rcases List.mem_cons.mp hw1 with heq | hmem
      · rw [heq]
        have hnot : ∀ w2 ∈ t, w2.1 ≠ w.1 := by
          intro w2 hw2 e
          apply hnd.1
          rw [← e]
          exact List.mem_map_of_mem Prod.fst hw2
        rw [get_runWrites_of_not_written _ t w.1 hnot]
        exact get_set_same m w.1 w.2
      · exact hget w1 hmem

theorem entries_runWrites_distinct (m : SparseMatrix T Dim) (ws : List (Position Dim × T))
    (hnd : (ws.map Prod.fst).Nodup) (hfresh : ∀ w ∈ ws, w.1 ∉ keysOf m.cells.entries)
    (hval : ∀ w ∈ ws, w.2 ≠ m.deflt) :
    (runWrites m ws).cells.entries = m.cells.entries ++ ws := by
  induction ws generalizing m with
  | nil => simp [runWrites]
  | cons w t ih =>
    simp only [List.map_cons, List.nodup_cons] at hnd
    have hw : w.2 ≠ m.deflt := hval w (List.mem_cons_self _ _)
    have hwk : w.1 ∉ keysOf m.cells.entries := hfresh w (List.mem_cons_self _ _)
    have hstep : (CellProxy.mk w.1).assign m w.2 = m.set w.1 w.2 := assign_of_ne m w.1 w.2 hw
    have hrun : runWrites m (w :: t) = runWrites (m.set w.1 w.2) t := by
      simp only [runWrites, List.foldl_cons, hstep]
    have hent : (m.set w.1 w.2).cells.entries = m.cells.entries ++ [w] :=
      assignEntries_of_not_mem w.1 w.2 m.cells.entries hwk
    have hfresh1 : ∀ w1 ∈ t, w1.1 ∉ keysOf (m.set w.1 w.2).cells.entries := by
      intro w1 hw1 hmem
      rw [hent] at hmem
      simp only [keysOf, List.map_append, List.map_cons, List.map_nil, List.mem_append,
        List.mem_singleton] at hmem
      rcases hmem with hmem | hmem
      · exact hfresh w1 (List.mem_cons_of_mem _ hw1) hmem
      · apply hnd.1
        rw [← hmem]
        exact List.mem_map_of_mem Prod.fst hw1
    have hval1 : ∀ w1 ∈ t, w1.2 ≠ (m.set w.1 w.2).deflt :=
      fun w1 hw1 => hval w1 (List.mem_cons_of_mem _ hw1)
    rw [hrun, ih (m.set w.1 w.2) hnd.2 hfresh1 hval1, hent]
    simp

theorem get_runWrites_reset (m : SparseMatrix T Dim) (d : T) (hd : m.deflt = d)
    (cs : List (Position Dim)) (c : Position Dim) (hc : c ∈ cs) :
    (runWrites m (cs.map (fun c1 => (c1, d)))).get c = d := by
  induction cs generalizing m with
  | nil => exact absurd hc (List.not_mem_nil c)
  | cons c0 t ih =>
    simp only [List.map_cons, runWrites, List.foldl_cons] at ih ⊢
    by_cases ht : c ∈ t
    · exact ih _ (by rw [deflt_assign]; exact hd) ht
    · have hc0 : c = c0 := by
        rcases List.mem_cons.mp hc with h | h
        · exact h
        · exact absurd h ht
      subst hc0
      have hnot : ∀ w ∈ t.map (fun c1 => (c1, d)), w.1 ≠ c := by
        intro w hw e
        obtain ⟨c1, hc1, hw1⟩ := List.mem_map.mp hw
        apply ht
        rw [← e, ← hw1]
        exact hc1
      have h := get_runWrites_of_not_written ((CellProxy.mk c).assign m d) _ c hnot
      simp only [runWrites] at h
      rw [h]
      exact get_assign_same m c d

theorem find_assign_same (m : SparseMatrix T Dim) (c : Position Dim) (v : T) :
    ((CellProxy.mk c).assign m v).cells.find c = if v ≠ m.deflt then some v else none := by
  by_cases hv : v ≠ m.deflt
  · rw [assign_of_ne m c v hv, if_pos hv]
    exact find_set_same m c v
  · rw [assign_of_eq m c v hv, if_neg hv]
    exact find_clear_same m c

theorem size_assign_formula (m : SparseMatrix T Dim) (c : Position Dim) (v : T) :
    ((CellProxy.mk c).assign m v).size + (if c ∈ keysOf m.cells.entries then 1 else 0)
      = m.size + (if v ≠ m.deflt then 1 else 0) := by
  by_cases hv : v ≠ m.deflt
  · rw [assign_of_ne m c v hv, if_pos hv, size_set]
    by_cases hk : c ∈ keysOf m.cells.entries
    · rw [if_pos hk, if_pos hk]
    · rw [if_neg hk, if_neg hk]
  · rw [assign_of_eq m c v hv, if_neg hv]
    by_cases hk : c ∈ keysOf m.cells.entries
    · rw [if_pos hk]
      exact size_clear_stored m c hk
    · rw [if_neg hk, clear_of_not_stored m c hk]

theorem mem_keys_assign_ne (m : SparseMatrix T Dim) (c c1 : Position Dim) (v : T)
    (hne : c ≠ c1) :
    c1 ∈ keysOf ((CellProxy.mk c).assign m v).cells.entries ↔ c1 ∈ keysOf m.cells.entries := by
  have h := find_assign_ne m c c1 v hne
  unfold UnorderedMap.find at h
  rw [← not_iff_not, ← findEntries_eq_none_iff, ← findEntries_eq_none_iff, h]

/-- The comparisons of a cell reference with a value compare the value read:
`r == v` holds exactly when the cell reads `v`, `r != v` is its negation, and
comparing with the value converted from another cell reference compares the two
values read. -/
theorem eqValue_iff {D2 : Nat} (m1 : SparseMatrix T Dim) (c1 : Position Dim)
    (m2 : SparseMatrix T D2) (c2 : Position D2) (v : T) :
    ((CellProxy.mk c1).eqValue m1 v = true ↔ m1.get c1 = v) ∧
    (CellProxy.mk c1).neValue m1 v = !((CellProxy.mk c1).eqValue m1 v) ∧
    ((CellProxy.mk c1).neValue m1 v = true ↔ m1.get c1 ≠ v) ∧
    ((CellProxy.mk c1).eqValue m1 ((CellProxy.mk c2).toT m2) = true
      ↔ m1.get c1 = m2.get c2) := by
  simp [CellProxy.eqValue, CellProxy.neValue, CellProxy.getRef, CellProxy.toT,
    CellProxy.getCopy]

theorem find_runWrites_of_not_written (m : SparseMatrix T Dim) (ws : List (Position Dim × T))
    (c : Position Dim) (h : ∀ w ∈ ws, w.1 ≠ c) :
    (runWrites m ws).cells.find c = m.cells.find c := by
  induction ws generalizing m with
  | nil => rfl
  | cons w t ih =>
    simp only [runWrites, List.foldl_cons] at ih ⊢
    rw [ih _ (fun w1 hw1 => h w1 (List.mem_cons_of_mem _ hw1))]
    exact find_assign_ne m w.1 c w.2 (h w (List.mem_cons_self _ _))

theorem find_runWrites_reset (m : SparseMatrix T Dim) (d : T) (hd : m.deflt = d)
    (cs : List (Position Dim)) (c : Position Dim) (hc : c ∈ cs) :
    (runWrites m (cs.map (fun c1 => (c1, d)))).cells.find c = none := by
  induction cs generalizing m with
  | nil => exact absurd hc (List.not_mem_nil c)
  | cons c0 t ih =>
    simp only [List.map_cons, runWrites, List.foldl_cons] at ih ⊢
    by_cases ht : c ∈ t
    · exact ih _ (by rw [deflt_assign]; exact hd) ht
    · have hc0 : c = c0 := by
        rcases List.mem_cons.mp hc with h | h
        · exact h
        · exact absurd h ht
      subst hc0
      have hnot : ∀ w ∈ t.map (fun c1 => (c1, d)), w.1 ≠ c := by
        intro w hw e
        obtain ⟨c1, hc1, hw1⟩ := List.mem_map.mp hw
        apply ht
        rw [← e, ← hw1]
        exact hc1
      have h := find_runWrites_of_not_written ((CellProxy.mk c).assign m d) _ c hnot
      simp only [runWrites] at h
      rw [h, find_assign_same, if_neg (not_not.mpr hd.symm)]

theorem entries_nil_of_reset (m : SparseMatrix T Dim) (cs : List (Position Dim))
    (hcover : ∀ c ∈ keysOf m.cells.entries, c ∈ cs) :
    (runWrites m (cs.map (fun c => (c, m.deflt)))).cells.entries = [] := by
  apply entries_nil_of_find_none
  intro c
  by_cases hc : c ∈ cs
  · exact find_runWrites_reset m m.deflt rfl cs c hc
  · have hnot : ∀ w ∈ cs.map (fun c1 => (c1, m.deflt)), w.1 ≠ c := by
      intro w hw e
      obtain ⟨c1, hc1, hw1⟩ := List.mem_map.mp hw
      apply hc
      rw [← e, ← hw1]
      exact hc1
    rw [find_runWrites_of_not_written m _ c hnot]
    exact (findEntries_eq_none_iff c m.cells.entries).mpr (fun hk => hc (hcover c hk))

theorem keys_runWrites_written (m : SparseMatrix T Dim) (ws : List (Position Dim × T))
    (c : Position Dim) (hk : c ∈ keysOf (runWrites m ws).cells.entries) :
    c ∈ keysOf m.cells.entries ∨ c ∈ ws.map Prod.fst := by
  by_cases hw : c ∈ ws.map Prod.fst
  · exact Or.inr hw
  · left
    have hnot : ∀ w ∈ ws, w.1 ≠ c := by
      intro w hmem e
      apply hw
      rw [← e]
      exact List.mem_map_of_mem Prod.fst hmem
    have hf := find_runWrites_of_not_written m ws c hnot
    by_contra hc
    have hnone : m.cells.find c = none := (findEntries_eq_none_iff c m.cells.entries).mpr hc
    rw [hnone] at hf
    exact (findEntries_eq_none_iff c _).mp hf hk

end Assign

end MatrixLemmas

/-! ## Facts about the coordinate constructors and index chains -/

section PositionLemmas

theorem position_ext {Dim : Nat} (p q : Position Dim) (h : p.coords = q.coords) : p = q := by
  cases p
  cases q
  simp only [Position.mk.injEq]
  exact h

theorem foldl_set_coords {Dim : Nat} (f : Nat → Nat) (is : List Nat) (p : Position Dim) :
    (is.foldl (fun acc i => acc.set i (f i)) p).coords
      = is.foldl (fun acc i => acc.set i (f i)) p.coords := by
  induction is generalizing p with
  | nil => rfl
  | cons i t ih =>
    simp only [List.foldl_cons]
    rw [ih]
    rfl

theorem foldl_set_range (l p : List Nat) (k : Nat) (hk : k ≤ l.length)
    (hp : l.length ≤ p.length) :
    (List.range k).foldl (fun acc i => acc.set i (l.getD i 0)) p = l.take k ++ p.drop k := by
  induction k with
  | zero => simp
  | succ k ih =>
    have hkl : k < l.length := by omega
    have hkp : k < p.length := by omega
    have hlen : (l.take k).length = k := by
      rw [List.length_take]
      omega
    have hget : l.getD k 0 = l[k] := by
      rw [List.getD_eq_getElem?_getD, List.getElem?_eq_getElem hkl]
      rfl
    rw [List.range_succ, List.foldl_append, ih (by omega)]
    simp only [List.foldl_cons, List.foldl_nil]
    rw [List.set_append_right _ _ (by omega), hlen, Nat.sub_self, hget]
    rw [List.take_succ, List.getElem?_eq_getElem hkl]
    rw [List.drop_eq_getElem_cons hkp, List.set_cons_zero]
    simp only [Option.toList_some, List.append_assoc, List.singleton_append]

theorem coords_copyFrom {Dim : Nat} (d : Position Dim) (p : Position (Dim + 1)) :
    (Position.copyFrom d p).coords = d.coords ++ p.coords.drop Dim := by
  have hd := d.size_eq
  have hp := p.size_eq
  unfold Position.copyFrom Position.size
  have h := foldl_set_coords (fun i => d.get i) (List.range Dim) p
  simp only [Position.get] at h ⊢
  rw [h, foldl_set_range d.coords p.coords Dim (by omega) (by omega)]
  rw [List.take_of_length_le (by omega)]

theorem coords_extend {Dim : Nat} (mem : Position (Dim + 1)) (d : Position Dim)
    (lastCoord : Nat) : (Position.extend mem d lastCoord).coords = d.coords ++ [lastCoord] := by
  have hd := d.size_eq
  have hp := mem.size_eq
  unfold Position.extend Position.set
  simp only [coords_copyFrom, Nat.add_sub_cancel]
  rw [List.set_append_right _ _ (by omega), hd, Nat.sub_self]
  have hlen : (mem.coords.drop Dim).length = 1 := by
    rw [List.length_drop]
    omega
  match hm : mem.coords.drop Dim, hlen with
  | [a], _ => rfl

theorem coords_ofList_one (mem : Position 1) (x : Nat) :
    (Position.ofList mem [x]).coords = [x] := by
  have hp := mem.size_eq
  unfold Position.ofList Position.fillFrom Position.set
  simp only [Nat.zero_add, if_true]
  match hm : mem.coords, hp with
  | [a], _ => rfl

theorem coords_sliceAfter {T : Type} {n : Nat} (m : SparseMatrix T (n + 2))
    (mem : (d : Nat) → Position d) (x : Nat → Nat) (k : Nat) (hk : k ≤ n) :
    (sliceAfter m mem x k hk).coord.coords = (List.range (k + 1)).map x := by
  induction k with
  | zero =>
    simp only [sliceAfter, SparseMatrix.index, coords_ofList_one]
    rfl
  | succ k ih =>
    simp only [sliceAfter, MatrixSlice.indexSlice, coords_extend]
    rw [ih (by omega), List.range_succ (k + 1), List.map_append]
    rfl

theorem coords_cellAt {T : Type} {n : Nat} (m : SparseMatrix T (n + 2))
    (mem : (d : Nat) → Position d) (x : Nat → Nat) :
    (cellAt m mem x).position.coords = (List.range (n + 2)).map x := by
  simp only [cellAt, MatrixSlice.indexCell, coords_extend, coords_sliceAfter]
  rw [List.range_succ (n + 1), List.map_append]
  rfl

theorem map_range_eq_iff (N : Nat) (x y : Nat → Nat) :
    (List.range N).map x = (List.range N).map y ↔ ∀ i, i < N → x i = y i := by
  constructor
  · intro h i hi
    have h1 := congrArg (fun l => l[i]?) h
    simpa [List.getElem?_map, List.getElem?_range hi] using h1
  · intro h
    apply List.map_congr_left
    intro i hi
    exact h i (List.mem_range.mp hi)

theorem toSizeT_inj (i j : Int) (hi1 : -(2 : Int) ^ 63 ≤ i) (hi2 : i < (2 : Int) ^ 63)
    (hj1 : -(2 : Int) ^ 63 ≤ j) (hj2 : j < (2 : Int) ^ 63) :
    toSizeT i = toSizeT j ↔ i = j := by
  have h64 : (2 : Int) ^ 64 = 18446744073709551616 := by norm_num
  have h63 : (2 : Int) ^ 63 = 9223372036854775808 := by norm_num
  rw [h63] at hi1 hi2 hj1 hj2
  unfold toSizeT
  rw [h64]
  constructor
  · intro h
    omega
  · intro h
    rw [h]

theorem get_set_position {Dim : Nat} (p : Position Dim) (j x i : Nat) (hj : j < Dim) :
    (p.set j x).get i = if i = j then x else p.get i := by
  have hp := p.size_eq
  unfold Position.get Position.set
  simp only [List.getD_eq_getElem?_getD, List.getElem?_set]
  by_cases h : i = j
  · subst h
    simp [hp, hj]
  · have h2 : ¬ j = i := fun e => h e.symm
    simp [h, h2]

theorem get_fillFrom {Dim : Nat} (l : List Nat) (j : Nat) (p : Position Dim) (i : Nat)
    (hj : j < Dim) :
    (Position.fillFrom l j p).get i
      = if j ≤ i ∧ i < j + l.length ∧ i < Dim then l.getD (i - j) 0 else p.get i := by
  induction l generalizing j p with
  | nil =>
    have : ¬ (j ≤ i ∧ i < j + ([] : List Nat).length ∧ i < Dim) := by
      simp only [List.length_nil]
      omega
    rw [if_neg this]
    rfl
  | cons x rest ih =>
    unfold Position.fillFrom
    by_cases hlast : j + 1 = Dim
    · rw [if_pos hlast, get_set_position p j x i hj]
      by_cases hij : i = j
      · subst hij
        have : i ≤ i ∧ i < i + (x :: rest).length ∧ i < Dim := by
          simp only [List.length_cons]
          omega
        rw [if_pos rfl, if_pos this]
        simp
      · have : ¬ (j ≤ i ∧ i < j + (x :: rest).length ∧ i < Dim) := by
          omega
        rw [if_neg hij, if_neg this]
    · rw [if_neg hlast, ih (j + 1) (p.set j x) (by omega), get_set_position p j x i hj]
      simp only [List.length_cons]
      by_cases hij : i = j
      · subst hij
        have h1 : ¬ (i + 1 ≤ i ∧ i < i + 1 + rest.length ∧ i < Dim) := by omega
        have h2 : i ≤ i ∧ i < i + (rest.length + 1) ∧ i < Dim := by omega
        rw [if_neg h1, if_pos rfl, if_pos h2]
        simp
      · by_cases hc : j + 1 ≤ i ∧ i < j + 1 + rest.length ∧ i < Dim
        · have h2 : j ≤ i ∧ i < j + (rest.length + 1) ∧ i < Dim := by omega
          rw [if_pos hc, if_pos h2]
          have : i - j = (i - (j + 1)) + 1 := by omega
          rw [this, List.getD_cons_succ]
        · have h2 : ¬ (j ≤ i ∧ i < j + (rest.length + 1) ∧ i < Dim) := by omega
          rw [if_neg hc, if_neg h2, if_neg hij]

theorem hash_combine_arith (hasher : Nat → Nat) (seed v : Nat) :
    hash_combine hasher seed v
      = seed ^^^ ((hasher v + 2654435769 + seed * 64 + seed / 4) % 2 ^ 64) := by
  unfold hash_combine
  rw [Nat.shiftLeft_eq, Nat.shiftRight_eq_div_pow]
  congr 1
  norm_num
  omega

theorem pos2_eq_iff (a b a1 b1 : Nat) : pos2 a b = pos2 a1 b1 ↔ (a = a1 ∧ b = b1) := by
  unfold pos2
  simp

theorem coords_ofList_take {Dim : Nat} (mem : Position Dim) (l : List Nat)
    (h : ∀ i, i < Dim → (Position.ofList mem l).get i = l.getD i 0) (hl : Dim ≤ l.length) :
    (Position.ofList mem l).coords = l.take Dim := by
  apply List.ext_getElem
  · rw [(Position.ofList mem l).size_eq, List.length_take]
    omega
  · intro i h1 h2
    have hi : i < Dim := by
      rw [(Position.ofList mem l).size_eq] at h1
      exact h1
    have hg := h i hi
    unfold Position.get at hg
    rw [List.getD_eq_getElem?_getD, List.getD_eq_getElem?_getD, List.getElem?_eq_getElem h1,
      List.getElem?_eq_getElem (by omega : i < l.length)] at hg
    simp only [Option.getD_some] at hg
    rw [hg, List.getElem_take]

theorem foldl_range_getD {α : Type} (f : α → Nat → α) (l : List Nat) (s0 : α) :
    (List.range l.length).foldl (fun s i => f s (l.getD i 0)) s0 = l.foldl f s0 := by
  induction l using List.reverseRecOn with
  | nil => rfl
  | append_singleton t x ih =>
    rw [List.length_append, List.length_singleton, List.range_succ, List.foldl_append,
      List.foldl_append]
    simp only [List.foldl_cons, List.foldl_nil]
    have h1 : (t ++ [x]).getD t.length 0 = x := by
      simp [List.getD_eq_getElem?_getD]
    have h2 : (List.range t.length).foldl (fun s i => f s ((t ++ [x]).getD i 0)) s0
        = (List.range t.length).foldl (fun s i => f s (t.getD i 0)) s0 := by
      apply List.foldl_ext
      intro s i hi
      have hi2 : i < t.length := List.mem_range.mp hi
      simp [List.getD_eq_getElem?_getD, List.getElem?_append_left hi2]
    rw [h1, h2, ih]

theorem hashPosition_eq_foldl (hasher : Nat → Nat) {D : Nat} (val : Position D) :
    hashPosition hasher val = val.coords.foldl (hash_combine hasher) 0 := by
  unfold hashPosition Position.size Position.get
  have h := foldl_range_getD (hash_combine hasher) val.coords 0
  rw [val.size_eq] at h
  exact h

theorem hash_combine_lt (hasher : Nat → Nat) (seed v : Nat) (hs : seed < 2 ^ 64) :
    hash_combine hasher seed v < 2 ^ 64 := by
  unfold hash_combine
  exact Nat.xor_lt_two_pow hs (Nat.mod_lt _ (by norm_num))

theorem foldl_hash_combine_lt (hasher : Nat → Nat) (l : List Nat) (seed : Nat)
    (hs : seed < 2 ^ 64) : l.foldl (hash_combine hasher) seed < 2 ^ 64 := by
  induction l generalizing seed with
  | nil => exact hs
  | cons x t ih => exact ih _ (hash_combine_lt hasher seed x hs)

end PositionLemmas

/-! ## Claims -/

/-- C1. Write-then-read: in every container state, after assigning `v` through
the cell reference for `c` (also when `v` is the default), `get(c)` and the
conversion of the cell reference to `T` both return `v`. -/
theorem C1_write_then_read {T : Type} [DecidableEq T] {MaxDim : Nat}
    (m : SparseMatrix T MaxDim) (c : Position MaxDim) (v : T) :
    ((CellProxy.mk c).assign m v).get c = v ∧
    (CellProxy.mk c).toT ((CellProxy.mk c).assign m v) = v ∧
    (CellProxy.mk c).toConstRef ((CellProxy.mk c).assign m v) = v := by
  have key : ((CellProxy.mk c).assign m v).get c = v := get_assign_same m c v
  exact ⟨key, key, key⟩

/-- C2. Unwritten cells read as the default: after any sequence of cell-reference
writes to a container freshly constructed with default `d`, none of which
targets `c`, `get(c)` returns `d`; a fresh container returns `d` at every
coordinate and has `size() == 0`. -/
theorem C2_unwritten_reads_default {T : Type} [DecidableEq T] {Dim : Nat}
    (d : T) (c : Position Dim) (ws : List (Position Dim × T)) (h : ∀ w ∈ ws, w.1 ≠ c) :
    (runWrites (SparseMatrix.create d) ws).get c = d ∧
    (∀ c1 : Position Dim, (SparseMatrix.create d : SparseMatrix T Dim).get c1 = d) ∧
    (SparseMatrix.create d : SparseMatrix T Dim).size = 0 := by
  refine ⟨?_, ?_, rfl⟩
  · rw [get_runWrites_of_not_written _ ws c h]
    rfl
  · intro c1
    rfl

/-- Witness of C2: default `-1`, the write `m[0][0] = 1`, read at `(5, 5)`. -/
theorem C2_unwritten_reads_default_witness :
    (runWrites (SparseMatrix.create (-1 : Int)) [(pos2 0 0, 1)]).get (pos2 5 5) = -1 ∧
    (∀ c1 : Position 2, (SparseMatrix.create (-1 : Int) : SparseMatrix Int 2).get c1 = -1) ∧
    (SparseMatrix.create (-1 : Int) : SparseMatrix Int 2).size = 0 :=
  C2_unwritten_reads_default (-1 : Int) (pos2 5 5) [(pos2 0 0, 1)] (by decide)

/-- C3, as stated, fails: on a container with default `0` holding `5` at
`(0, 0)`, `set((0, 0), 0)` keeps an entry for `(0, 0)`, now holding the default,
and the size stays 1, whereas `clear((0, 0))` leaves no entry. -/
theorem C3_set_elides_default_counterexample :
    (((SparseMatrix.create (0 : Int) : SparseMatrix Int 2).set (pos2 0 0) 5).set
        (pos2 0 0) 0).cells.entries = [(pos2 0 0, 0)] ∧
    (((SparseMatrix.create (0 : Int) : SparseMatrix Int 2).set (pos2 0 0) 5).set
        (pos2 0 0) 0).size = 1 ∧
    (((SparseMatrix.create (0 : Int) : SparseMatrix Int 2).set (pos2 0 0) 5).clear
        (pos2 0 0)).cells.entries = [] ∧
    (((SparseMatrix.create (0 : Int) : SparseMatrix Int 2).set (pos2 0 0) 5).clear
        (pos2 0 0)).size = 0 := by
  decide

/-- C3, amended. `SparseMatrix::set(c, v)` inserts or overwrites the entry for
`c` with `v` for every value `v`, the default included: afterwards the entry for
`c` holds `v`, the entries of the other coordinates and the default are
unchanged, and the size grows by one exactly when `c` had no entry.  The
default is elided by the cell reference, whose assignment calls `clear(c)` and
not `set` when `v` equals the default. -/
theorem C3_set_always_stores {T : Type} [DecidableEq T] {Dim : Nat}
    (m : SparseMatrix T Dim) (c : Position Dim) (v : T) :
    (m.set c v).cells.find c = some v ∧
    (∀ c1 : Position Dim, c ≠ c1 → (m.set c v).cells.find c1 = m.cells.find c1) ∧
    (m.set c v).getDefault = m.getDefault ∧
    (m.set c v).size = (if m.cells.find c = none then m.size + 1 else m.size) ∧
    (v = m.getDefault → (CellProxy.mk c).assign m v = m.clear c) ∧
    (v ≠ m.getDefault → (CellProxy.mk c).assign m v = m.set c v) := by
  refine ⟨find_set_same m c v, fun c1 h => find_set_ne m c c1 v h, rfl, ?_, ?_, ?_⟩
  · rw [size_set]
    by_cases hk : c ∈ keysOf m.cells.entries
    · have hf : ¬ m.cells.find c = none := fun e =>
        (findEntries_eq_none_iff c m.cells.entries).mp e hk
      rw [if_pos hk, if_neg hf]
    · have hf : m.cells.find c = none := (findEntries_eq_none_iff c m.cells.entries).mpr hk
      rw [if_neg hk, if_pos hf]
  · intro hv
    unfold CellProxy.assign
    rw [if_neg (not_not.mpr hv)]
  · intro hv
    unfold CellProxy.assign
    rw [if_pos hv]

/-- C4. Default elision on cell-reference write: in every state in which no
stored entry holds the default, which includes every state reached from a
fresh container by cell-reference assignments, assigning the default to `c`
through its cell reference gives the state of `clear(c)`; afterwards `c` has no
entry and `get(c)` is the default, and `size()` is one less than before when `c`
read as non-default and unchanged otherwise. -/
theorem C4_default_write_is_clear {T : Type} [DecidableEq T] {Dim : Nat}
    (m : SparseMatrix T Dim) (hm : NoDefaultStored m) (c : Position Dim) :
    (CellProxy.mk c).assign m m.getDefault = m.clear c ∧
    ((CellProxy.mk c).assign m m.getDefault).cells.find c = none ∧
    ((CellProxy.mk c).assign m m.getDefault).get c = m.getDefault ∧
    (m.get c ≠ m.getDefault → ((CellProxy.mk c).assign m m.getDefault).size + 1 = m.size) ∧
    (m.get c = m.getDefault → ((CellProxy.mk c).assign m m.getDefault).size = m.size) ∧
    (∀ (d : T) (ws : List (Position Dim × T)),
      NoDefaultStored (runWrites (SparseMatrix.create d) ws)) := by
  have hstate : (CellProxy.mk c).assign m m.getDefault = m.clear c := by
    unfold CellProxy.assign
    rw [if_neg (not_not.mpr rfl)]
  refine ⟨hstate, ?_, get_assign_same m c m.getDefault, ?_, ?_,
    fun d ws => noDefaultStored_runWrites _ (noDefaultStored_create d) ws⟩
  · rw [hstate]
    exact find_clear_same m c
  · intro hget
    rw [hstate]
    exact size_clear_stored m c ((get_ne_deflt_iff m hm c).mp hget)
  · intro hget
    rw [hstate]
    have hk : c ∉ keysOf m.cells.entries := fun hk =>
      (get_ne_deflt_iff m hm c).mpr hk hget
    rw [clear_of_not_stored m c hk]

/-- Witness of C4: default `-1`, the cells `(0, 0)` and `(0, 1)` hold `5`, and
the default is assigned at `(0, 0)`, which leaves one entry. -/
theorem C4_default_write_is_clear_witness :
    ((CellProxy.mk (pos2 0 0)).assign
        (runWrites (SparseMatrix.create (-1 : Int)) [(pos2 0 0, 5), (pos2 0 1, 5)])
        (runWrites (SparseMatrix.create (-1 : Int))
          [(pos2 0 0, 5), (pos2 0 1, 5)]).getDefault).size + 1
      = (runWrites (SparseMatrix.create (-1 : Int)) [(pos2 0 0, 5), (pos2 0 1, 5)]).size ∧
    (runWrites (SparseMatrix.create (-1 : Int)) [(pos2 0 0, 5), (pos2 0 1, 5)]).size = 2 :=
  ⟨(C4_default_write_is_clear
      (runWrites (SparseMatrix.create (-1 : Int)) [(pos2 0 0, 5), (pos2 0 1, 5)])
      (by unfold NoDefaultStored; decide) (pos2 0 0)).2.2.2.1 (by decide), by decide⟩

/-- C5. Sparsity invariant: after any sequence of cell-reference assignments
(from a value, from a cell of the same container, from a cell of another
container) and `clear` calls on a freshly constructed container, no stored
entry holds the default value. -/
theorem C5_sparsity_invariant {T : Type} [DecidableEq T] {Dim : Nat}
    (d : T) (ops : List (Op T Dim)) :
    NoDefaultStored (runOps (SparseMatrix.create d) ops) := by
  have key : ∀ (l : List (Op T Dim)) (m : SparseMatrix T Dim),
      NoDefaultStored m → NoDefaultStored (runOps m l) := by
    intro l
    induction l with
    | nil => intro m hm; exact hm
    | cons op t ih =>
      intro m hm
      simp only [runOps, List.foldl_cons] at ih ⊢
      exact ih _ (noDefaultStored_run m hm op)
  exact key ops _ (noDefaultStored_create d)

/-- C6. `size()` counts the non-default cells: in every state reached from a
fresh container by cell-reference assignments, `size()` is the number of
coordinates whose read differs from the default; and after assigning
non-default values to pairwise distinct coordinates of a fresh container,
`size()` is the number of assignments and each coordinate reads back its
value. -/
theorem C6_size_counts_non_default {T : Type} [DecidableEq T] {Dim : Nat}
    (d : T) (ws : List (Position Dim × T)) :
    Set.ncard {c : Position Dim | (runWrites (SparseMatrix.create d) ws).get c
        ≠ (runWrites (SparseMatrix.create d) ws).getDefault}
      = (runWrites (SparseMatrix.create d) ws).size ∧
    ((ws.map Prod.fst).Nodup → (∀ w ∈ ws, w.2 ≠ d) →
      (runWrites (SparseMatrix.create d) ws).size = ws.length ∧
      ∀ w ∈ ws, (runWrites (SparseMatrix.create d) ws).get w.1 = w.2) := by
  constructor
  · exact ncard_non_default _ (noDefaultStored_runWrites _ (noDefaultStored_create d) ws)
  · intro hnd hval
    have h := runWrites_distinct (SparseMatrix.create d : SparseMatrix T Dim) ws hnd
      (fun w _ hmem => by simp [SparseMatrix.create, UnorderedMap.emptyMap, keysOf] at hmem)
      hval
    refine ⟨?_, h.2⟩
    rw [h.1]
    simp [SparseMatrix.create, SparseMatrix.size, UnorderedMap.size, UnorderedMap.emptyMap]

/-- Witness of C6: default `-1` and the three writes `m[0][0] = 0`,
`m[1][1] = 1`, `m[2][2] = 2` of distinct cells. -/
theorem C6_size_counts_non_default_witness :
    (runWrites (SparseMatrix.create (-1 : Int))
      [(pos2 0 0, 0), (pos2 1 1, 1), (pos2 2 2, 2)]).size = 3 ∧
    (runWrites (SparseMatrix.create (-1 : Int))
      [(pos2 0 0, 0), (pos2 1 1, 1), (pos2 2 2, 2)]).get (pos2 1 1) = 1 :=
  ⟨((C6_size_counts_non_default (-1 : Int) [(pos2 0 0, 0), (pos2 1 1, 1), (pos2 2 2, 2)]).2
      (by decide) (by decide)).1, by decide⟩

/-- C7. Frame of a write: for coordinates `c ≠ c1`, assigning `v` through the
cell reference for `c` changes neither `get(c1)`, nor the stored entry of `c1`,
nor `getDefault()`; the entries keyed by coordinates other than `c` are the same
before and after. -/
theorem C7_write_frame {T : Type} [DecidableEq T] {MaxDim : Nat}
    (m : SparseMatrix T MaxDim) (c c1 : Position MaxDim) (v : T) (hne : c ≠ c1) :
    ((CellProxy.mk c).assign m v).get c1 = m.get c1 ∧
    ((CellProxy.mk c).assign m v).getDefault = m.getDefault ∧
    ((CellProxy.mk c).assign m v).cells.find c1 = m.cells.find c1 ∧
    ((CellProxy.mk c).assign m v).cells.entries.filter (fun e => decide (e.1 ≠ c))
      = m.cells.entries.filter (fun e => decide (e.1 ≠ c)) :=
  ⟨get_assign_ne m c c1 v hne, deflt_assign m c v, find_assign_ne m c c1 v hne,
    filter_assign m c v⟩

/-- Witness of C7: default `-1`, the cell `(5, 4)` holds `7`, and `5` is
written at `(5, 5)`. -/
theorem C7_write_frame_witness :
    ((CellProxy.mk (pos2 5 5)).assign
        ((SparseMatrix.create (-1 : Int)).set (pos2 5 4) 7) 5).get (pos2 5 4)
      = ((SparseMatrix.create (-1 : Int)).set (pos2 5 4) 7).get (pos2 5 4) ∧
    ((CellProxy.mk (pos2 5 5)).assign
        ((SparseMatrix.create (-1 : Int)).set (pos2 5 4) 7) 5).get (pos2 5 4) = 7 :=
  ⟨(C7_write_frame ((SparseMatrix.create (-1 : Int)).set (pos2 5 4) 7)
      (pos2 5 5) (pos2 5 4) 5 (by decide)).1, by decide⟩

/-- C8. Reads never materialize a cell: `get`, the conversions of a cell
reference to `T`, and its comparisons `==` and `!=` with a value return the
value read and leave the container state as it was, for stored and unstored
coordinates alike, also for the cell reference reached by an index chain; so
the entries, `size()` and the default are unchanged. -/
theorem C8_reads_leave_state {T : Type} [DecidableEq T] {n : Nat}
    (m : SparseMatrix T (n + 2)) (r : CellProxy (n + 2)) (c : Position (n + 2)) (v : T)
    (mem : (d : Nat) → Position d) (x : Nat → Nat) :
    m.getS c = (m.get c, m) ∧
    r.toTS m = (r.toT m, m) ∧
    r.toConstRefS m = (r.toConstRef m, m) ∧
    r.eqValueS m v = (r.eqValue m v, m) ∧
    r.neValueS m v = (r.neValue m v, m) ∧
    (cellAt m mem x).toTS m = (m.get (cellAt m mem x).position, m) ∧
    (cellAt m mem x).eqValueS m v = (decide (m.get (cellAt m mem x).position = v), m) ∧
    (m.getS c).2.cells.entries = m.cells.entries ∧
    (m.getS c).2.size = m.size ∧
    (m.getS c).2.getDefault = m.getDefault := by
  have hget : ∀ p : Position (n + 2), m.getS p = (m.get p, m) := by
    intro p
    unfold SparseMatrix.getS SparseMatrix.get
    cases m.cells.find p <;> rfl
  have hc := hget c
  refine ⟨hc, ?_, ?_, ?_, ?_, ?_, ?_, ?_, ?_, ?_⟩
  · simp only [CellProxy.toTS, CellProxy.getCopyS, CellProxy.toT, CellProxy.getCopy, hget]
  · simp only [CellProxy.toConstRefS, CellProxy.getRefS, CellProxy.toConstRef,
      CellProxy.getRef, hget]
  · simp only [CellProxy.eqValueS, CellProxy.getRefS, CellProxy.eqValue, CellProxy.getRef, hget]
  · simp only [CellProxy.neValueS, CellProxy.eqValueS, CellProxy.getRefS, CellProxy.neValue,
      CellProxy.eqValue, CellProxy.getRef, hget]
  · simp only [CellProxy.toTS, CellProxy.getCopyS, hget]
  · simp only [CellProxy.eqValueS, CellProxy.getRefS, hget]
  · rw [hc]
  · rw [hc]
  · rw [hc]

/-- C9. Last assignment wins: assigning `a` and then `b` through the cell
reference for `c` gives the same read at every coordinate, the same `size()`
and the same default as assigning `b` alone; assigning the same value twice
gives the state reached after the first assignment, so `size()` is unchanged
after the first one. -/
theorem C9_last_assignment_wins {T : Type} [DecidableEq T] {MaxDim : Nat}
    (m : SparseMatrix T MaxDim) (c : Position MaxDim) (a b : T) :
    (∀ c1 : Position MaxDim,
      ((CellProxy.mk c).assign ((CellProxy.mk c).assign m a) b).get c1
        = ((CellProxy.mk c).assign m b).get c1) ∧
    ((CellProxy.mk c).assign ((CellProxy.mk c).assign m a) b).size
      = ((CellProxy.mk c).assign m b).size ∧
    ((CellProxy.mk c).assign ((CellProxy.mk c).assign m a) b).getDefault
      = ((CellProxy.mk c).assign m b).getDefault ∧
    ((CellProxy.mk c).assign ((CellProxy.mk c).assign m a) b).get c = b ∧
    (CellProxy.mk c).assign ((CellProxy.mk c).assign m a) a = (CellProxy.mk c).assign m a ∧
    ((CellProxy.mk c).assign ((CellProxy.mk c).assign m a) a).size
      = ((CellProxy.mk c).assign m a).size := by
  refine ⟨?_, size_assign_assign m c a b, ?_, get_assign_same _ c b,
    assign_assign_same m c a, ?_⟩
  · intro c1
    by_cases h : c = c1
    · subst h
      rw [get_assign_same, get_assign_same]
    · rw [get_assign_ne _ c c1 b h, get_assign_ne _ c c1 a h, get_assign_ne _ c c1 b h]
  · simp only [SparseMatrix.getDefault, deflt_assign]
  · rw [assign_assign_same]

/-- C10. Chained indexing resolves to the coordinate in index order: in an
`(n + 2)`-dimensional matrix, `m[x 0][x 1]...[x (n + 1)]` is the cell reference
bound to the coordinate with component `i` equal to `x i`, the slice after
`k + 1` index steps holds `(x 0, ..., x k)`, and two chains give the same cell
reference exactly when their axis values agree at every axis, whatever the
arrays held before construction.  In a three-dimensional matrix a write at
`(1, 0, 0)` changes neither the read at `(0, 1, 0)` nor the one at
`(0, 0, 1)`. -/
theorem C10_chain_indexing {T : Type} [DecidableEq T] {n : Nat} (m : SparseMatrix T (n + 2))
    (mem1 mem2 : (d : Nat) → Position d) (x y : Nat → Nat) :
    (cellAt m mem1 x).position.coords = (List.range (n + 2)).map x ∧
    (∀ i, i < n + 2 → (cellAt m mem1 x).position.get i = x i) ∧
    (∀ (k : Nat) (hk : k ≤ n),
      (sliceAfter m mem1 x k hk).coord.coords = (List.range (k + 1)).map x) ∧
    (cellAt m mem1 x = cellAt m mem2 y ↔ ∀ i, i < n + 2 → x i = y i) ∧
    (∀ (m3 : SparseMatrix T 3) (v : T),
      (cellAt m3 mem1 (axes [0, 1, 0])).toT
          ((cellAt m3 mem1 (axes [1, 0, 0])).assign m3 v)
        = (cellAt m3 mem1 (axes [0, 1, 0])).toT m3 ∧
      (cellAt m3 mem1 (axes [0, 0, 1])).toT
          ((cellAt m3 mem1 (axes [1, 0, 0])).assign m3 v)
        = (cellAt m3 mem1 (axes [0, 0, 1])).toT m3 ∧
      (cellAt m3 mem1 (axes [1, 0, 0])).toT
          ((cellAt m3 mem1 (axes [1, 0, 0])).assign m3 v) = v) := by
  refine ⟨coords_cellAt m mem1 x, ?_, fun k hk => coords_sliceAfter m mem1 x k hk, ?_, ?_⟩
  · intro i hi
    unfold Position.get
    rw [coords_cellAt, List.getD_eq_getElem?_getD, List.getElem?_map, List.getElem?_range hi]
    rfl
  · rw [← map_range_eq_iff (n + 2) x y, ← coords_cellAt m mem1 x, ← coords_cellAt m mem2 y]
    constructor
    · intro h
      rw [h]
    · intro h
      have hp : (cellAt m mem1 x).position = (cellAt m mem2 y).position := position_ext _ _ h
      cases hx : cellAt m mem1 x
      cases hy : cellAt m mem2 y
      rw [hx, hy] at hp
      simp only [CellProxy.mk.injEq]
      exact hp
  · intro m3 v
    have h100 : cellAt m3 mem1 (axes [1, 0, 0]) = CellProxy.mk (pos3 1 0 0) := by
      have hp : (cellAt m3 mem1 (axes [1, 0, 0])).position = pos3 1 0 0 :=
        position_ext _ _ (coords_cellAt m3 mem1 (axes [1, 0, 0]))
      cases hx : cellAt m3 mem1 (axes [1, 0, 0])
      rw [hx] at hp
      simp only [CellProxy.mk.injEq]
      exact hp
    have h010 : cellAt m3 mem1 (axes [0, 1, 0]) = CellProxy.mk (pos3 0 1 0) := by
      have hp : (cellAt m3 mem1 (axes [0, 1, 0])).position = pos3 0 1 0 :=
        position_ext _ _ (coords_cellAt m3 mem1 (axes [0, 1, 0]))
      cases hx : cellAt m3 mem1 (axes [0, 1, 0])
      rw [hx] at hp
      simp only [CellProxy.mk.injEq]
      exact hp
    have h001 : cellAt m3 mem1 (axes [0, 0, 1]) = CellProxy.mk (pos3 0 0 1) := by
      have hp : (cellAt m3 mem1 (axes [0, 0, 1])).position = pos3 0 0 1 :=
        position_ext _ _ (coords_cellAt m3 mem1 (axes [0, 0, 1]))
      cases hx : cellAt m3 mem1 (axes [0, 0, 1])
      rw [hx] at hp
      simp only [CellProxy.mk.injEq]
      exact hp
    rw [h100, h010, h001]
    refine ⟨?_, ?_, ?_⟩
    · exact get_assign_ne m3 (pos3 1 0 0) (pos3 0 1 0) v (by decide)
    · exact get_assign_ne m3 (pos3 1 0 0) (pos3 0 0 1) v (by decide)
    · exact get_assign_same m3 (pos3 1 0 0) v

/-- C11. Cell-to-cell assignment transfers the value: after `m2[c2] = m1[c1]`,
for cells of two containers (of any defaults) or of one container, the
destination reads what the source read before, the source container is as it
was and the source cell still reads that value, and every cell other than the
destination, and the defaults, are unchanged. -/
theorem C11_cell_to_cell_transfer {T : Type} [DecidableEq T] {D1 D2 : Nat}
    (m1 : SparseMatrix T D1) (c1 : Position D1) (m2 : SparseMatrix T D2) (c2 : Position D2)
    (c3 : Position D2) :
    ((CellProxy.mk c2).assignFromS m2 (CellProxy.mk c1) m1).1.get c2 = m1.get c1 ∧
    ((CellProxy.mk c2).assignFromS m2 (CellProxy.mk c1) m1).2 = m1 ∧
    ((CellProxy.mk c2).assignFromS m2 (CellProxy.mk c1) m1).1
      = (CellProxy.mk c2).assignFrom m2 (CellProxy.mk c1) m1 ∧
    ((CellProxy.mk c2).assignFromS m2 (CellProxy.mk c1) m1).1.getDefault = m2.getDefault ∧
    (∀ c : Position D2, c2 ≠ c →
      ((CellProxy.mk c2).assignFromS m2 (CellProxy.mk c1) m1).1.get c = m2.get c) ∧
    ((CellProxy.mk c2).assignCellS m2 (CellProxy.mk c3)).get c2 = m2.get c3 ∧
    ((CellProxy.mk c2).assignCellS m2 (CellProxy.mk c3)).get c3 = m2.get c3 ∧
    (CellProxy.mk c2).assignCellS m2 (CellProxy.mk c3)
      = (CellProxy.mk c2).assignCell m2 (CellProxy.mk c3) ∧
    ((CellProxy.mk c2).assignCellS m2 (CellProxy.mk c3)).getDefault = m2.getDefault ∧
    (∀ c : Position D2, c2 ≠ c →
      ((CellProxy.mk c2).assignCellS m2 (CellProxy.mk c3)).get c = m2.get c) := by
  have hS1 : (CellProxy.mk c1).getCopyS m1 = (m1.get c1, m1) := by
    unfold CellProxy.getCopyS SparseMatrix.getS SparseMatrix.get
    cases m1.cells.find c1 <;> rfl
  have hS3 : (CellProxy.mk c3).getCopyS m2 = (m2.get c3, m2) := by
    unfold CellProxy.getCopyS SparseMatrix.getS SparseMatrix.get
    cases m2.cells.find c3 <;> rfl
  have e1 : (CellProxy.mk c2).assignFromS m2 (CellProxy.mk c1) m1
      = ((CellProxy.mk c2).assign m2 (m1.get c1), m1) := by
    simp only [CellProxy.assignFromS, hS1]
  have e2 : (CellProxy.mk c2).assignCellS m2 (CellProxy.mk c3)
      = (CellProxy.mk c2).assign m2 (m2.get c3) := by
    simp only [CellProxy.assignCellS, hS3]
  rw [e1, e2]
  refine ⟨get_assign_same m2 c2 _, rfl, rfl, deflt_assign m2 c2 _,
    fun c h => get_assign_ne m2 c2 c _ h, get_assign_same m2 c2 _, ?_, rfl,
    deflt_assign m2 c2 _, fun c h => get_assign_ne m2 c2 c _ h⟩
  by_cases h : c2 = c3
  · rw [← h]
    exact get_assign_same m2 c2 _
  · exact get_assign_ne m2 c2 c3 _ h

/-- C12. `clear(c)` removes exactly the entry for `c`: afterwards `get(c)` is
the default; when `c` had an entry `size()` decreases by one, and when it had
none the state is unchanged; the read of every other coordinate and the default
are unchanged; and a second `clear(c)` changes nothing. -/
theorem C12_clear_removes_entry {T : Type} {Dim : Nat}
    (m : SparseMatrix T Dim) (c : Position Dim) :
    (m.clear c).get c = m.getDefault ∧
    (m.clear c).cells.find c = none ∧
    (m.cells.find c ≠ none → (m.clear c).size + 1 = m.size) ∧
    (m.cells.find c = none → m.clear c = m) ∧
    (∀ c1 : Position Dim, c ≠ c1 → (m.clear c).get c1 = m.get c1) ∧
    (∀ c1 : Position Dim, c ≠ c1 → (m.clear c).cells.find c1 = m.cells.find c1) ∧
    (m.clear c).getDefault = m.getDefault ∧
    (m.clear c).clear c = m.clear c := by
  refine ⟨get_clear_same m c, find_clear_same m c, ?_, ?_, fun c1 h => get_clear_ne m c c1 h,
    fun c1 h => find_clear_ne m c c1 h, deflt_clear m c, clear_clear_same m c⟩
  · intro h
    apply size_clear_stored m c
    by_contra hk
    exact h ((findEntries_eq_none_iff c m.cells.entries).mpr hk)
  · intro h
    exact clear_of_not_stored m c ((findEntries_eq_none_iff c m.cells.entries).mp h)

/-- C13. Iteration completeness: after assigning non-default values to pairwise
distinct coordinates of a fresh container, the iteration from `begin()` to
`end()` visits as many pairs as there were assignments, these pairs are the
assigned pairs up to order, and none is visited twice; in every state reached
by cell-reference assignments the visited pairs are exactly the pairs
`(c, get(c))` with `get(c)` different from the default, one per coordinate. -/
theorem C13_iteration_completeness {T : Type} [DecidableEq T] {Dim : Nat}
    (d : T) (ws : List (Position Dim × T)) :
    ((ws.map Prod.fst).Nodup → (∀ w ∈ ws, w.2 ≠ d) →
      (runWrites (SparseMatrix.create d) ws).iterate.length = ws.length ∧
      (runWrites (SparseMatrix.create d) ws).iterate.Perm ws ∧
      (runWrites (SparseMatrix.create d) ws).iterate.Nodup) ∧
    (∀ (c : Position Dim) (v : T), (c, v) ∈ (runWrites (SparseMatrix.create d) ws).iterate ↔
      (v = (runWrites (SparseMatrix.create d) ws).get c ∧
        (runWrites (SparseMatrix.create d) ws).get c
          ≠ (runWrites (SparseMatrix.create d) ws).getDefault)) ∧
    ((runWrites (SparseMatrix.create d) ws).iterate.map Prod.fst).Nodup ∧
    (runWrites (SparseMatrix.create d) ws).iterate.length
      = (runWrites (SparseMatrix.create d) ws).size := by
  refine ⟨?_, ?_, (runWrites (SparseMatrix.create d) ws).cells.nodup, rfl⟩
  · intro hnd hval
    have h := entries_runWrites_distinct (SparseMatrix.create d : SparseMatrix T Dim) ws hnd
      (fun w _ hmem => by simp [SparseMatrix.create, UnorderedMap.emptyMap, keysOf] at hmem)
      hval
    have he : (runWrites (SparseMatrix.create d : SparseMatrix T Dim) ws).iterate = ws := by
      unfold SparseMatrix.iterate
      rw [h]
      simp [SparseMatrix.create, UnorderedMap.emptyMap]
    rw [he]
    exact ⟨rfl, List.Perm.refl ws, List.Nodup.of_map Prod.fst hnd⟩
  · intro c v
    exact mem_entries_iff _ (noDefaultStored_runWrites _ (noDefaultStored_create d) ws) c v

/-- Witness of C13: default `-1` and the writes `m[1][1] = 5`, `m[2][2] = 10`
of the iterator test. -/
theorem C13_iteration_completeness_witness :
    (runWrites (SparseMatrix.create (-1 : Int)) [(pos2 1 1, 5), (pos2 2 2, 10)]).iterate.length
      = 2 ∧
    (runWrites (SparseMatrix.create (-1 : Int)) [(pos2 1 1, 5), (pos2 2 2, 10)]).iterate.Perm
      [(pos2 1 1, 5), (pos2 2 2, 10)] :=
  ⟨((C13_iteration_completeness (-1 : Int) [(pos2 1 1, 5), (pos2 2 2, 10)]).1
      (by decide) (by decide)).1,
    ((C13_iteration_completeness (-1 : Int) [(pos2 1 1, 5), (pos2 2 2, 10)]).1
      (by decide) (by decide)).2.1⟩

/-- C14. Whole-container assignment replaces the cells and the default: after
copy assignment `m2 = m1`, and after copy construction from `m1`, the target
equals `m1` (same default, same read at every coordinate, same size) and `m1`
is unchanged; after move-assigning a freshly constructed container with default
`d`, the target is empty and has default `d`. -/
theorem C14_container_assignment {T : Type} {Dim : Nat}
    (m1 m2 : SparseMatrix T Dim) (d : T) :
    (m2.copyAssign m1).1.getDefault = m1.getDefault ∧
    (∀ c : Position Dim, (m2.copyAssign m1).1.get c = m1.get c) ∧
    (m2.copyAssign m1).1.size = m1.size ∧
    (m2.copyAssign m1).1 = m1 ∧
    (m2.copyAssign m1).2 = m1 ∧
    (SparseMatrix.copyConstruct m1).1.getDefault = m1.getDefault ∧
    (∀ c : Position Dim, (SparseMatrix.copyConstruct m1).1.get c = m1.get c) ∧
    (SparseMatrix.copyConstruct m1).1.size = m1.size ∧
    (SparseMatrix.copyConstruct m1).2 = m1 ∧
    (m2.moveAssign (SparseMatrix.create d)).1.empty = true ∧
    (m2.moveAssign (SparseMatrix.create d)).1.size = 0 ∧
    (m2.moveAssign (SparseMatrix.create d)).1.getDefault = d ∧
    (m2.moveAssign m1).1 = m1 := by
  refine ⟨rfl, fun _ => rfl, rfl, rfl, rfl, rfl, fun _ => rfl, rfl, rfl, rfl, rfl, rfl, rfl⟩

/-- C15. Resetting every written cell empties the container: in every state,
assigning the default through cell references to a list of coordinates that
contains every stored coordinate leaves no entry, `size() == 0` and `empty()`
true; in particular after any sequence of cell-reference assignments to a fresh
container, assigning the default to every coordinate that was written does so;
and in every state `empty()` holds exactly when `size() == 0`. -/
theorem C15_reset_all_empties {T : Type} [DecidableEq T] {Dim : Nat}
    (m : SparseMatrix T Dim) (cs : List (Position Dim))
    (hcover : ∀ c ∈ keysOf m.cells.entries, c ∈ cs) :
    (runWrites m (cs.map (fun c => (c, m.getDefault)))).cells.entries = [] ∧
    (runWrites m (cs.map (fun c => (c, m.getDefault)))).size = 0 ∧
    (runWrites m (cs.map (fun c => (c, m.getDefault)))).empty = true ∧
    (∀ (d : T) (ws : List (Position Dim × T)) (cs1 : List (Position Dim)),
      (∀ w ∈ ws, w.1 ∈ cs1) →
      (runWrites (runWrites (SparseMatrix.create d) ws) (cs1.map (fun c => (c, d)))).size = 0 ∧
      (runWrites (runWrites (SparseMatrix.create d) ws)
        (cs1.map (fun c => (c, d)))).empty = true) ∧
    (∀ m1 : SparseMatrix T Dim, m1.empty = true ↔ m1.size = 0) := by
  have hnil := entries_nil_of_reset m cs hcover
  have hsize : ∀ m1 : SparseMatrix T Dim, m1.cells.entries = [] →
      m1.size = 0 ∧ m1.empty = true := by
    intro m1 h1
    simp only [SparseMatrix.size, UnorderedMap.size, SparseMatrix.empty, UnorderedMap.empty,
      h1, List.length_nil, List.isEmpty_nil, and_self]
  refine ⟨hnil, (hsize _ hnil).1, (hsize _ hnil).2, ?_, ?_⟩
  · intro d ws cs1 hw
    have hd : (runWrites (SparseMatrix.create d : SparseMatrix T Dim) ws).deflt = d :=
      deflt_runWrites _ ws
    have hcov : ∀ c ∈ keysOf (runWrites (SparseMatrix.create d : SparseMatrix T Dim)
        ws).cells.entries, c ∈ cs1 := by
      intro c hk
      rcases keys_runWrites_written _ ws c hk with h | h
      · simp [SparseMatrix.create, UnorderedMap.emptyMap, keysOf] at h
      · obtain ⟨w, hmem, hw1⟩ := List.mem_map.mp h
        rw [← hw1]
        exact hw w hmem
    have h := entries_nil_of_reset (runWrites (SparseMatrix.create d : SparseMatrix T Dim) ws)
      cs1 hcov
    rw [hd] at h
    exact hsize _ h
  · intro m1
    simp only [SparseMatrix.empty, UnorderedMap.empty, SparseMatrix.size, UnorderedMap.size,
      List.isEmpty_iff, List.length_eq_zero]

/-- Witness of C15: the removal test, default `-1`: the cells `(0, 0)`, `(0, 1)`
and `(1, 0)` hold `5`, so the size is 3, and the three resets leave size 0. -/
theorem C15_reset_all_empties_witness :
    (runWrites (runWrites (SparseMatrix.create (-1 : Int))
        [(pos2 0 0, 5), (pos2 0 1, 5), (pos2 1 0, 5)])
      ([pos2 0 0, pos2 1 0, pos2 0 1].map (fun c => (c,
        (runWrites (SparseMatrix.create (-1 : Int))
          [(pos2 0 0, 5), (pos2 0 1, 5), (pos2 1 0, 5)]).getDefault)))).size = 0 ∧
    (runWrites (SparseMatrix.create (-1 : Int))
        [(pos2 0 0, 5), (pos2 0 1, 5), (pos2 1 0, 5)]).size = 3 :=
  ⟨(C15_reset_all_empties
      (runWrites (SparseMatrix.create (-1 : Int)) [(pos2 0 0, 5), (pos2 0 1, 5), (pos2 1 0, 5)])
      [pos2 0 0, pos2 1 0, pos2 0 1] (by decide)).2.1, by decide⟩

/-- C17. Signed axis values are ordinary distinct keys: for signed 64-bit
indices, negative ones included, each converted to `size_t` modulo `2 ^ 64`,
after assigning a non-default `v` through `m[i][j]` on a fresh container,
`m[i1][j1]` reads `v` when `(i1, j1) = (i, j)` and the default otherwise, and
`size() == 1`. -/
theorem C17_signed_indices {T : Type} [DecidableEq T] (d v : T) (hv : v ≠ d)
    (mem : (k : Nat) → Position k) (i j i1 j1 : Int)
    (hi : InInt64 i) (hj : InInt64 j) (hi1 : InInt64 i1) (hj1 : InInt64 j1) :
    (indexSigned ((indexSigned (SparseMatrix.create d) mem i j).assign
        (SparseMatrix.create d) v) mem i1 j1).toT
      ((indexSigned (SparseMatrix.create d) mem i j).assign (SparseMatrix.create d) v)
      = (if i1 = i ∧ j1 = j then v else d) ∧
    ((indexSigned (SparseMatrix.create d) mem i j).assign (SparseMatrix.create d) v).size
      = 1 := by
  have hidx : ∀ (m : SparseMatrix T 2) (a b : Int),
      indexSigned m mem a b = CellProxy.mk (pos2 (toSizeT a) (toSizeT b)) := by
    intro m a b
    have hp : (indexSigned m mem a b).position = pos2 (toSizeT a) (toSizeT b) :=
      position_ext _ _ (coords_cellAt m mem (axes [toSizeT a, toSizeT b]))
    cases hx : indexSigned m mem a b
    rw [hx] at hp
    simp only [CellProxy.mk.injEq]
    exact hp
  rw [hidx, hidx]
  constructor
  · unfold CellProxy.toT CellProxy.getCopy
    by_cases h : i1 = i ∧ j1 = j
    · rw [if_pos h, h.1, h.2]
      exact get_assign_same _ _ v
    · rw [if_neg h]
      have hne : pos2 (toSizeT i) (toSizeT j) ≠ pos2 (toSizeT i1) (toSizeT j1) := by
        intro e
        apply h
        have e2 := (pos2_eq_iff _ _ _ _).mp e
        exact ⟨((toSizeT_inj i i1 hi.1 hi.2 hi1.1 hi1.2).mp e2.1).symm,
          ((toSizeT_inj j j1 hj.1 hj.2 hj1.1 hj1.2).mp e2.2).symm⟩
      show SparseMatrix.get _ (pos2 (toSizeT i1) (toSizeT j1)) = d
      rw [get_assign_ne _ _ _ v hne]
      rfl
  · rw [assign_of_ne _ _ v hv, size_set]
    rfl

/-- Witness of C17: default `0`, the write `m[-1][-1] = 5` of the corner test,
read back at `(-1, -1)`. -/
theorem C17_signed_indices_witness :
    (indexSigned ((indexSigned (SparseMatrix.create (0 : Int)) (filledMem 0) (-1) (-1)).assign
        (SparseMatrix.create (0 : Int)) (5 : Int)) (filledMem 0) (-1) (-1)).toT
      ((indexSigned (SparseMatrix.create (0 : Int)) (filledMem 0) (-1) (-1)).assign
        (SparseMatrix.create (0 : Int)) (5 : Int))
      = (if (-1 : Int) = -1 ∧ (-1 : Int) = -1 then (5 : Int) else 0) ∧
    ((indexSigned (SparseMatrix.create (0 : Int)) (filledMem 0) (-1) (-1)).assign
        (SparseMatrix.create (0 : Int)) (5 : Int)).size = 1 :=
  C17_signed_indices (0 : Int) 5 (by decide) (filledMem 0) (-1) (-1) (-1) (-1)
    (by unfold InInt64; decide) (by unfold InInt64; decide)
    (by unfold InInt64; decide) (by unfold InInt64; decide)

/-- C18, as stated, fails: built in an array holding `7` in every slot,
`Position<4>` from the list `(1, 2)` has component 2 equal to `7`, not `0`. -/
theorem C18_zero_padding_counterexample :
    (Position.ofList (⟨[7, 7, 7, 7], rfl⟩ : Position 4) [1, 2]).coords = [1, 2, 7, 7] ∧
    (Position.ofList (⟨[7, 7, 7, 7], rfl⟩ : Position 4) [1, 2]).get 2 ≠ 0 := by
  decide

/-- C18, amended. For `Dim >= 1`, `Position<Dim>(l)` has component `i` equal to
`l[i]` for every `i < min(length(l), Dim)`, so a list of at least `Dim` values
is truncated to its first `Dim` values; the constructor writes no component
`i >= length(l)`, which keeps the content `mem` the array had before. -/
theorem C18_ofList_truncates {Dim : Nat} (hDim : 1 ≤ Dim) (mem : Position Dim)
    (l : List Nat) :
    (∀ i, i < min l.length Dim → (Position.ofList mem l).get i = l.getD i 0) ∧
    (∀ i, l.length ≤ i → (Position.ofList mem l).get i = mem.get i) ∧
    (Dim ≤ l.length → (Position.ofList mem l).coords = l.take Dim) := by
  have hget : ∀ i, (Position.ofList mem l).get i
      = if 0 ≤ i ∧ i < 0 + l.length ∧ i < Dim then l.getD (i - 0) 0 else mem.get i :=
    fun i => get_fillFrom l 0 mem i (by omega)
  have h1 : ∀ i, i < min l.length Dim → (Position.ofList mem l).get i = l.getD i 0 := by
    intro i hi
    have hc : 0 ≤ i ∧ i < 0 + l.length ∧ i < Dim := by omega
    rw [hget i, if_pos hc, Nat.sub_zero]
  refine ⟨h1, ?_, ?_⟩
  · intro i hi
    have hc : ¬ (0 ≤ i ∧ i < 0 + l.length ∧ i < Dim) := by omega
    rw [hget i, if_neg hc]
  · intro hl
    exact coords_ofList_take mem l (fun i hi => h1 i (by omega)) hl

/-- Witness of C18, amended: dimension 4, the list `(1, 2)`, an array holding
`7` in every slot. -/
theorem C18_ofList_truncates_witness :
    (∀ i, i < min [1, 2].length 4 →
      (Position.ofList (⟨[7, 7, 7, 7], rfl⟩ : Position 4) [1, 2]).get i = [1, 2].getD i 0) ∧
    (∀ i, [1, 2].length ≤ i →
      (Position.ofList (⟨[7, 7, 7, 7], rfl⟩ : Position 4) [1, 2]).get i
        = (⟨[7, 7, 7, 7], rfl⟩ : Position 4).get i) ∧
    (4 ≤ [1, 2].length →
      (Position.ofList (⟨[7, 7, 7, 7], rfl⟩ : Position 4) [1, 2]).coords = [1, 2].take 4) :=
  C18_ofList_truncates (by decide) (⟨[7, 7, 7, 7], rfl⟩ : Position 4) [1, 2]

/-- C19. The coordinate hash depends on axis order: `std::hash<Position<D>>` is
the left fold, from seed 0 over the components in axis order, of
`seed ^= h(v) + 0x9e3779b9 + (seed << 6) + (seed >> 2)` in 64-bit arithmetic,
for the standard library's `h = std::hash<size_t>`; it depends on the component
sequence only and stays below `2 ^ 64`; and with the identity as `h` the
coordinates `(0, 1)` and `(1, 0)` have different hashes. -/
theorem C19_hash_order_dependent (hasher : Nat → Nat) {D : Nat} (val : Position D) :
    hashPosition hasher val = val.coords.foldl (hash_combine hasher) 0 ∧
    (∀ seed v : Nat, hash_combine hasher seed v
      = seed ^^^ ((hasher v + 2654435769 + seed * 64 + seed / 4) % 2 ^ 64)) ∧
    (∀ q : Position D, q.coords = val.coords → hashPosition hasher q = hashPosition hasher val) ∧
    hashPosition hasher val < 2 ^ 64 ∧
    (∃ a b : Nat, a ≠ b ∧ hashPosition id (pos2 a b) ≠ hashPosition id (pos2 b a)) := by
  refine ⟨hashPosition_eq_foldl hasher val, hash_combine_arith hasher, ?_, ?_, ?_⟩
  · intro q hq
    rw [hashPosition_eq_foldl, hashPosition_eq_foldl, hq]
  · rw [hashPosition_eq_foldl]
    exact foldl_hash_combine_lt hasher val.coords 0 (by norm_num)
  · exact ⟨0, 1, by decide, by decide⟩

/-- C20. Writes to distinct cells commute: for `c1 ≠ c2`, assigning `a` at `c1`
and then `b` at `c2` through cell references gives the same read and the same
stored entry at every coordinate, the same `size()` and the same default as
assigning `b` at `c2` and then `a` at `c1`. -/
theorem C20_distinct_writes_commute {T : Type} [DecidableEq T] {Dim : Nat}
    (m : SparseMatrix T Dim) (c1 c2 : Position Dim) (a b : T) (hne : c1 ≠ c2) :
    (∀ c : Position Dim,
      ((CellProxy.mk c2).assign ((CellProxy.mk c1).assign m a) b).get c
        = ((CellProxy.mk c1).assign ((CellProxy.mk c2).assign m b) a).get c) ∧
    (∀ c : Position Dim,
      ((CellProxy.mk c2).assign ((CellProxy.mk c1).assign m a) b).cells.find c
        = ((CellProxy.mk c1).assign ((CellProxy.mk c2).assign m b) a).cells.find c) ∧
    ((CellProxy.mk c2).assign ((CellProxy.mk c1).assign m a) b).size
      = ((CellProxy.mk c1).assign ((CellProxy.mk c2).assign m b) a).size ∧
    ((CellProxy.mk c2).assign ((CellProxy.mk c1).assign m a) b).getDefault
      = ((CellProxy.mk c1).assign ((CellProxy.mk c2).assign m b) a).getDefault := by
  have hne2 : c2 ≠ c1 := fun e => hne e.symm
  have hfind : ∀ c : Position Dim,
      ((CellProxy.mk c2).assign ((CellProxy.mk c1).assign m a) b).cells.find c
        = ((CellProxy.mk c1).assign ((CellProxy.mk c2).assign m b) a).cells.find c := by
    intro c
    by_cases h1 : c1 = c
    · subst h1
      rw [find_assign_ne _ c2 c1 b hne2, find_assign_same, find_assign_same, deflt_assign]
    · by_cases h2 : c2 = c
      · subst h2
        rw [find_assign_ne _ c1 c2 a hne, find_assign_same, find_assign_same, deflt_assign]
      · rw [find_assign_ne _ c2 c b h2, find_assign_ne _ c1 c a h1, find_assign_ne _ c1 c a h1,
          find_assign_ne _ c2 c b h2]
  have hdef : ((CellProxy.mk c2).assign ((CellProxy.mk c1).assign m a) b).deflt
      = ((CellProxy.mk c1).assign ((CellProxy.mk c2).assign m b) a).deflt := by
    simp only [deflt_assign]
  refine ⟨?_, hfind, ?_, hdef⟩
  · intro c
    unfold SparseMatrix.get
    rw [hfind c, hdef]
  · have s1 := size_assign_formula m c1 a
    have s2 := size_assign_formula ((CellProxy.mk c1).assign m a) c2 b
    have s3 := size_assign_formula m c2 b
    have s4 := size_assign_formula ((CellProxy.mk c2).assign m b) c1 a
    rw [deflt_assign] at s2 s4
    have k2 := mem_keys_assign_ne m c1 c2 a hne
    have k4 := mem_keys_assign_ne m c2 c1 b hne2
    by_cases hk1 : c1 ∈ keysOf m.cells.entries <;>
      by_cases hk2 : c2 ∈ keysOf m.cells.entries <;>
      by_cases ha : a ≠ m.deflt <;>
      by_cases hb : b ≠ m.deflt <;>
      simp only [hk1, hk2, ha, hb, k2, k4, if_true, if_false, not_true_eq_false,
        not_false_eq_true] at s1 s2 s3 s4 <;>
      omega

/-- Witness of C20: default `-1`, the writes `m[0][1] = 5` and `m[1][0] = -1`
on a container holding `7` at `(1, 0)`. -/
theorem C20_distinct_writes_commute_witness :
    ((CellProxy.mk (pos2 1 0)).assign ((CellProxy.mk (pos2 0 1)).assign
        ((SparseMatrix.create (-1 : Int)).set (pos2 1 0) 7) 5) (-1)).size
      = ((CellProxy.mk (pos2 0 1)).assign ((CellProxy.mk (pos2 1 0)).assign
        ((SparseMatrix.create (-1 : Int)).set (pos2 1 0) 7) (-1)) 5).size ∧
    ((CellProxy.mk (pos2 1 0)).assign ((CellProxy.mk (pos2 0 1)).assign
        ((SparseMatrix.create (-1 : Int)).set (pos2 1 0) 7) 5) (-1)).size = 1 :=
  ⟨(C20_distinct_writes_commute ((SparseMatrix.create (-1 : Int)).set (pos2 1 0) 7)
      (pos2 0 1) (pos2 1 0) 5 (-1) (by decide)).2.2.1, by decide⟩

end SparseMatrixModel
